import Mathlib

/-!
# Verification of the multicastv6 roundsend protocol

Shallow embedding of the four programs of the `multicastv6` repository:

* `src/receiver.cpp`  — multi-stream receiver, 12-byte header (`stream_id`,
  `sequence`, `flags`, all big-endian), subscription filter, per-stream
  reassembly, finalization timeout, per-stream file sinks or stdout.
* `src/sender.cpp`    — legacy sender, 8-byte header (`sequence`, `flags`).
* `src/unnamed/part_000` — legacy single-stream receiver, 8-byte header.
* `src/unnamed/part_001` — multi-stream sender, 12-byte header.

Machine integers of the source (`uint32_t`) are modelled as `Nat`; all the
receiver-side counters only ever increase by one per received frame, so no
wrap-around is reachable in the scenarios treated here, and the wire codec
reads 4-byte big-endian words whose value is below `2^32` by construction.
Byte strings are `List Nat` (each element a byte value).  Wall-clock
timestamps (`std::chrono::steady_clock::time_point`) are `Nat` seconds.
-/

/-! ## Wire constants (identical in all four programs) -/

/-- `PAYLOAD_SIZE` from the sources: maximum payload bytes per frame. -/
def PAYLOAD_SIZE : Nat := 1200

/-- `HDR_LEN` of the 12-byte header variant (`src/receiver.cpp`, `part_001`). -/
def HDR12 : Nat := 12

/-- `FLAG_FINAL`: bit 0 of the flags word marks the final frame. -/
def FLAG_FINAL : Nat := 1

/-- `MAX_PKT = HDR_LEN + PAYLOAD_SIZE` receive-buffer size of `src/receiver.cpp`:
`recv` delivers at most this many bytes of a datagram; the rest is discarded. -/
def MAX_PKT : Nat := HDR12 + PAYLOAD_SIZE

/-! ## Frames (decoded datagrams) -/

/-- One decoded frame: sequence number, final flag, payload bytes.
The stream id is carried separately where it exists (12-byte variant). -/
structure Frame where
  seq : Nat
  fin : Bool
  payload : List Nat
deriving DecidableEq, Repr

/-! ## Per-stream reassembly state

`StreamState` of `src/receiver.cpp` / the local state of `part_000`:
`expected` starts at 1, `buffer` is the out-of-order map `seq -> payload`
(`std::map`, modelled as an association list with unique keys — insertion is
guarded by a lookup in the source, so keys never repeat), `final_seen`,
`final_seq` and `final_at` track the final marker. -/
structure LState where
  expected : Nat
  buffer : List (Nat × List Nat)
  final_seen : Bool
  final_seq : Nat
  final_at : Nat
deriving DecidableEq, Repr

/-- Initial per-stream state (`expected = 1`, everything else empty/zero). -/
def initL : LState := ⟨1, [], false, 0, 0⟩

/-- `std::map::find`: first entry with the given key. -/
def lookupBuf : List (Nat × List Nat) → Nat → Option (List Nat)
  | [], _ => none
  | (k, v) :: rest, key => if k = key then some v else lookupBuf rest key

/-- `std::map::erase` of one key (keys are unique, so filtering is the same). -/
def eraseBuf (b : List (Nat × List Nat)) (key : Nat) : List (Nat × List Nat) :=
  b.filter (fun kv => kv.1 ≠ key)

/-- The contiguous-drain loop shared by both receivers
(`while (true) { it = buffer.find(expected); if (end) break; write; erase; ++expected; }`),
in fuel-passing form so that it reduces in the kernel; each iteration removes
one buffer entry, so `buffer.length` fuel is always enough (see `drain`). -/
def drainFuel : Nat → LState → LState × List Nat
  | 0, st => (st, [])
  | n + 1, st =>
    match lookupBuf st.buffer st.expected with
    | none => (st, [])
    | some v =>
      let r := drainFuel n { st with buffer := eraseBuf st.buffer st.expected,
                                     expected := st.expected + 1 }
      (r.1, v ++ r.2)

/-- The drain loop of the sources: emit and remove buffered entries while the
buffer contains the key `expected`, incrementing `expected` each time. -/
def drain (st : LState) : LState × List Nat :=
  drainFuel st.buffer.length st

/-- Completion predicate of the sources: `final_seen && expected > final_seq`. -/
def completeL (st : LState) : Bool :=
  st.final_seen && decide (st.final_seq < st.expected)

/-- One frame ingested into a stream's state
(`src/receiver.cpp` lines 204–241, `part_000` lines 158–184):
* `seq < expected` — stale duplicate, dropped with no state change and no
  emission (the `continue` also skips the final-flag update);
* `seq == expected` — emit the payload, bump `expected`, drain the buffer;
* `seq > expected` — insert into the buffer unless the key is already present
  (first-writer-wins);
then, for non-stale frames, `flags & FLAG_FINAL` sets `final_seen`,
`final_seq` and `final_at` (last final marker wins).
Returns the new state and the bytes handed to the sink's `write`. -/
def ingest (st : LState) (f : Frame) (t : Nat) : LState × List Nat :=
  if f.seq < st.expected then
    (st, [])
  else
    let r :=
      if f.seq = st.expected then
        let d := drain { st with expected := st.expected + 1 }
        (d.1, f.payload ++ d.2)
      else
        if (lookupBuf st.buffer f.seq).isSome then (st, [])
        else ({ st with buffer := (f.seq, f.payload) :: st.buffer }, [])
    if f.fin then
      ({ r.1 with final_seen := true, final_seq := f.seq, final_at := t }, r.2)
    else
      r

/-- The stale-duplicate branch of `ingest` in one equation. -/
theorem ingest_stale (st : LState) (f : Frame) (t : Nat)
    (h : f.seq < st.expected) : ingest st f t = (st, []) := by
  simp [ingest, h]

/-! ## Receiver diagnostics (the `std::cerr` lines the claims talk about) -/

/-- The diagnostic messages relevant to the claims:
* `gap e f b` — `part_000`'s timeout line
  `"Timeout waiting for missing packets (expected=e final=f buffered=b)"`;
* `timeoutStream sid` — `src/receiver.cpp`'s
  `"Timeout waiting for missing packets for stream sid"` (no counts);
* `finishedStream sid` — `"Stream sid finished"`;
* `recvError` — the `perror("recv")` fatal-exit path. -/
inductive Report where
  | gap (expected finalSeq buffered : Nat)
  | timeoutStream (sid : Nat)
  | finishedStream (sid : Nat)
  | recvError
deriving DecidableEq, Repr

/-! ## The legacy single-stream receiver (`part_000`) -/

/-- An event of the receive loop: a decoded frame arriving at time `t`,
or a 1-second `recv` timeout tick observed at time `t`. -/
inductive LEv where
  | frame (f : Frame) (t : Nat)
  | tick (t : Nat)
deriving DecidableEq, Repr

/-- Result of running the legacy receive loop: final state, bytes written to
the single sink, diagnostics, and whether the loop broke before consuming
every event. -/
structure LRes where
  state : LState
  out : List Nat
  reports : List Report
  broke : Bool
deriving DecidableEq, Repr

/-- The receive loop of `part_000` (lines 126–190): on a frame, stale frames
`continue` directly; otherwise ingest, then break once
`final_seen && expected > final_seq`.  On a timeout tick, if a final marker
is pending for longer than the configured timeout, print the gap line
(expected, final sequence, buffered-entry count) and break. -/
def legacyLoop (tmo : Nat) (st : LState) : List LEv → LRes
  | [] => ⟨st, [], [], false⟩
  | LEv.frame f t :: rest =>
    if f.seq < st.expected then
      legacyLoop tmo st rest
    else
      let r1 := ingest st f t
      if completeL r1.1 then
        ⟨r1.1, r1.2, [], true⟩
      else
        let r := legacyLoop tmo r1.1 rest
        ⟨r.state, r1.2 ++ r.out, r.reports, r.broke⟩
  | LEv.tick t :: rest =>
    if st.final_seen && decide (tmo < t - st.final_at) then
      ⟨st, [], [Report.gap st.expected st.final_seq st.buffer.length], true⟩
    else
      legacyLoop tmo st rest

/-- Full run of `part_000`: the loop followed by the best-effort flush of
contiguous buffered packets (lines 192–199; the flush is the same drain loop,
writing to the same sink). -/
def runLegacy (tmo : Nat) (evs : List LEv) : LRes :=
  let r := legacyLoop tmo initL evs
  let fl := drain r.state
  ⟨fl.1, r.out ++ fl.2, r.reports, r.broke⟩

/-- The bytes `part_000` writes to its sink over a run. -/
def legacyBytes (tmo : Nat) (evs : List LEv) : List Nat :=
  (runLegacy tmo evs).out

/-- Frame deliveries (no ticks), as loop events; the timestamp is irrelevant
without ticks and is taken to be 0. -/
def toEvs (fs : List Frame) : List LEv :=
  fs.map (fun f => LEv.frame f 0)

/-! ### Basic lemmas about the buffer and the drain loop -/

theorem lookupBuf_eraseBuf (b : List (Nat × List Nat)) (k key : Nat) :
    lookupBuf (eraseBuf b key) k = if k = key then none else lookupBuf b k := by
  induction b with
  | nil => simp [eraseBuf, lookupBuf]
  | cons hd tl ih =>
    obtain ⟨k0, v0⟩ := hd
    simp only [eraseBuf, List.filter_cons, ne_eq, decide_not] at ih ⊢
    by_cases h0 : k0 = key
    · subst h0
      rw [if_neg (by simp), ih]
      by_cases hk : k = k0
      · simp [hk]
      · simp [lookupBuf, hk, Ne.symm hk]
    · rw [if_pos (by simp [h0])]
      by_cases hk0 : k0 = k
      · subst hk0
        simp [lookupBuf, h0]
      · simp [lookupBuf, hk0, ih]

theorem eraseBuf_length_lt (b : List (Nat × List Nat)) (key : Nat) (v : List Nat)
    (h : lookupBuf b key = some v) : (eraseBuf b key).length < b.length := by
  induction b with
  | nil => simp [lookupBuf] at h
  | cons hd tl ih =>
    obtain ⟨k0, v0⟩ := hd
    simp only [eraseBuf, List.filter_cons, ne_eq, decide_not] at ih ⊢
    by_cases h0 : k0 = key
    · rw [if_neg (by simp [h0])]
      have hle := List.length_filter_le (fun kv : Nat × List Nat => !decide (kv.1 = key)) tl
      simpa using Nat.lt_succ_of_le hle
    · simp only [lookupBuf, if_neg h0] at h
      have := ih h
      rw [if_pos (by simp [h0])]
      simpa using Nat.succ_lt_succ this

/-! ## The 12-byte wire codec (`src/receiver.cpp` lines 164–202) -/

/-- Byte `i` of a datagram (out-of-range reads never happen on the paths the
receiver takes, since it checks the length first). -/
def byteAt (d : List Nat) (i : Nat) : Nat := d.getD i 0

/-- A big-endian 32-bit word read at offset `off`
(`memcpy` + `ntohl` in the source). -/
def be32at (d : List Nat) (off : Nat) : Nat :=
  byteAt d off * 2 ^ 24 + byteAt d (off + 1) * 2 ^ 16 +
    byteAt d (off + 2) * 2 ^ 8 + byteAt d (off + 3)

/-- A parsed 12-byte-header datagram. -/
structure Parsed where
  sid : Nat
  seq : Nat
  flags : Nat
  payload : List Nat
deriving DecidableEq, Repr

/-- Header parse of `src/receiver.cpp`: drop datagrams shorter than
`HDR_LEN = 12` (`if ((size_t)n < HDR_LEN) continue;`), otherwise read
`stream_id`, `sequence`, `flags` big-endian at offsets 0, 4, 8 and take every
remaining byte as payload.  No upper bound on the payload is checked here. -/
def parseDgram (d : List Nat) : Option Parsed :=
  if d.length < HDR12 then none
  else some ⟨be32at d 0, be32at d 4, be32at d 8, d.drop HDR12⟩

/-- What the receiver actually parses for a datagram on the wire: `recv` is
called with the `MAX_PKT = 1212`-byte buffer `rxbuf`, so at most `MAX_PKT`
bytes of the datagram are delivered; the rest of an oversized datagram is
discarded by the kernel. -/
def recvParse (d : List Nat) : Option Parsed :=
  parseDgram (d.take MAX_PKT)

/-- Big-endian encoding of a 32-bit value (sender-side `htonl` + `memcpy`). -/
def be32bytes (n : Nat) : List Nat :=
  [n / 2 ^ 24 % 256, n / 2 ^ 16 % 256, n / 2 ^ 8 % 256, n % 256]

/-- A 12-byte-header datagram as `part_001` sends it. -/
def mkDgram (sid seq flags : Nat) (payload : List Nat) : List Nat :=
  be32bytes sid ++ be32bytes seq ++ be32bytes flags ++ payload

/-! ## The multi-stream receiver (`src/receiver.cpp`) -/

/-- Per-stream state of the multi-stream receiver: the reassembly core plus
the sink bookkeeping (`has_file`: the per-stream output file was opened;
`fout_open`: the `std::ofstream` is currently open — writes to a closed
stream produce no bytes). -/
structure MState where
  core : LState
  has_file : Bool
  fout_open : Bool
deriving DecidableEq, Repr

/-- A freshly created `StreamState` (`streams[sid]` default-constructs it). -/
def initM : MState := ⟨initL, false, false⟩

/-- Receiver configuration after argument parsing: `-s all` vs. the parsed
subscription set, and whether the output pattern is the stdout sentinel `-`.
Opening the per-stream output file is modelled as always succeeding (the
filesystem is an external collaborator). -/
structure MCfg where
  subscribeAll : Bool
  subs : List Nat
  outDash : Bool
deriving DecidableEq, Repr

/-- `single_to_stdout`: subscribed to exactly one stream and `-o -` given. -/
def singleStdout (cfg : MCfg) : Bool :=
  !cfg.subscribeAll && cfg.subs.length == 1 && cfg.outDash

/-- `streams.find(sid)` on the stream map. -/
def lookupS : List (Nat × MState) → Nat → Option MState
  | [], _ => none
  | (k, v) :: rest, sid => if k = sid then some v else lookupS rest sid

/-- Store a stream's state back into the map (in-place mutation of the
`std::map` entry; inserts at the end when the key is new). -/
def updateS (m : List (Nat × MState)) (sid : Nat) (st : MState) :
    List (Nat × MState) :=
  match m with
  | [] => [(sid, st)]
  | (k, v) :: rest =>
    if k = sid then (k, st) :: rest else (k, v) :: updateS rest sid st

/-- The `all_done` scan (`src/receiver.cpp` lines 146–155 and 248–256): every
subscribed stream id must exist and satisfy `final_seen && expected > final_seq`. -/
def allDone (cfg : MCfg) (streams : List (Nat × MState)) : Bool :=
  cfg.subs.all (fun sid =>
    match lookupS streams sid with
    | none => false
    | some st => completeL st.core)

/-- Whether a `write` on this stream's sink currently produces bytes
(`src/receiver.cpp` lines 207–213: stdout only in single-stream `-o -` mode
with exactly one live stream, otherwise the per-stream file when it is open). -/
def writableNow (cfg : MCfg) (streamCount : Nat) (st : MState) : Bool :=
  (singleStdout cfg && streamCount == 1 && !st.has_file) ||
    (st.has_file && st.fout_open)

/-- Handling of one accepted-or-dropped frame by the multi-stream receiver
(`src/receiver.cpp` lines 172–258): subscription filter, lazy creation of the
stream state, lazy opening of the sink, stale drop, ingest, final-flag
update, and the completion check that closes the file and (in `AcceptSet`
mode) may end the loop.  Returns the new stream map, the bytes written per
sink, diagnostics, and whether the loop breaks. -/
def mFrame (cfg : MCfg) (streams : List (Nat × MState)) (sid seq : Nat)
    (fin : Bool) (payload : List Nat) (t : Nat) :
    List (Nat × MState) × List (Nat × List Nat) × List Report × Bool :=
  if !cfg.subscribeAll && !(cfg.subs.contains sid) then
    (streams, [], [], false)
  else
    let st0 := (lookupS streams sid).getD initM
    let st1 :=
      if !st0.has_file && !(singleStdout cfg) then
        { st0 with has_file := true, fout_open := true }
      else st0
    let streams1 := updateS streams sid st1
    if seq < st1.core.expected then
      (streams1, [], [], false)
    else
      let r := ingest st1.core ⟨seq, fin, payload⟩ t
      let emitted := if writableNow cfg streams1.length st1 then r.2 else []
      if completeL r.1 then
        let st2 : MState :=
          ⟨r.1, st1.has_file,
            if st1.has_file && st1.fout_open then false else st1.fout_open⟩
        let streams2 := updateS streams1 sid st2
        (streams2, [(sid, emitted)], [Report.finishedStream sid],
          !cfg.subscribeAll && allDone cfg streams2)
      else
        (updateS streams1 sid ⟨r.1, st1.has_file, st1.fout_open⟩,
          [(sid, emitted)], [], false)

/-- Timeout handling for one stream (`src/receiver.cpp` lines 134–144): if a
final marker has been pending longer than the timeout, print the per-stream
timeout line and set `final_seen = false`. -/
def mTickStream (tmo t : Nat) (st : MState) : MState × Bool :=
  if st.core.final_seen && decide (tmo < t - st.core.final_at) then
    ({ st with core := { st.core with final_seen := false } }, true)
  else (st, false)

/-- One `recv`-timeout tick (`src/receiver.cpp` lines 131–157): run the
timeout pass over every stream, then evaluate `all_done` (always false in
`AcceptAll` mode) to decide whether the loop ends. -/
def mTick (cfg : MCfg) (tmo t : Nat) (streams : List (Nat × MState)) :
    List (Nat × MState) × List Report × Bool :=
  let pairs := streams.map (fun e =>
    let r := mTickStream tmo t e.2
    ((e.1, r.1), if r.2 then [Report.timeoutStream e.1] else []))
  let streams1 := pairs.map (·.1)
  ((streams1, (pairs.map (·.2)).flatten,
    !cfg.subscribeAll && allDone cfg streams1))

/-- One received datagram: `recv` truncates to `MAX_PKT` bytes, short
datagrams are dropped, and `flags & FLAG_FINAL` is the only flag bit read. -/
def mDgram (cfg : MCfg) (streams : List (Nat × MState)) (d : List Nat)
    (t : Nat) : List (Nat × MState) × List (Nat × List Nat) × List Report × Bool :=
  match recvParse d with
  | none => (streams, [], [], false)
  | some p => mFrame cfg streams p.sid p.seq (p.flags &&& FLAG_FINAL != 0) p.payload t

/-- Events driving the multi-stream receive loop: a datagram on the wire at
time `t`, a `recv` timeout tick at time `t`, or a fatal `recv` error. -/
inductive MEv where
  | dgram (d : List Nat) (t : Nat)
  | tick (t : Nat)
  | err
deriving DecidableEq, Repr

/-- Result of the multi-stream receive loop. -/
structure MRes where
  streams : List (Nat × MState)
  writes : List (Nat × List Nat)
  reports : List Report
  broke : Bool
deriving DecidableEq, Repr

/-- The receive loop of `src/receiver.cpp` (lines 129–259). -/
def mLoop (cfg : MCfg) (tmo : Nat) (streams : List (Nat × MState)) :
    List MEv → MRes
  | [] => ⟨streams, [], [], false⟩
  | MEv.err :: _ => ⟨streams, [], [Report.recvError], true⟩
  | MEv.tick t :: rest =>
    let r1 := mTick cfg tmo t streams
    if r1.2.2 then ⟨r1.1, [], r1.2.1, true⟩
    else
      let r := mLoop cfg tmo r1.1 rest
      ⟨r.streams, r.writes, r1.2.1 ++ r.reports, r.broke⟩
  | MEv.dgram d t :: rest =>
    let r1 := mDgram cfg streams d t
    if r1.2.2.2 then ⟨r1.1, r1.2.1, r1.2.2.1, true⟩
    else
      let r := mLoop cfg tmo r1.1 rest
      ⟨r.streams, r1.2.1 ++ r.writes, r1.2.2.1 ++ r.reports, r.broke⟩

/-- Post-loop flush of one stream (`src/receiver.cpp` lines 262–271): run the
drain loop, writing only to the per-stream file (there is no stdout write on
this path, and a closed file takes no bytes), then close the file if it is
open.  No diagnostic of any kind is printed here. -/
def flushStream (st : MState) : MState × List Nat :=
  let r := drain st.core
  (⟨r.1, st.has_file,
     if st.has_file && st.fout_open then false else st.fout_open⟩,
   if st.has_file && st.fout_open then r.2 else [])

/-- Post-loop flush over every live stream. -/
def flushM (streams : List (Nat × MState)) :
    List (Nat × MState) × List (Nat × List Nat) :=
  (streams.map (fun e => (e.1, (flushStream e.2).1)),
   streams.map (fun e => (e.1, (flushStream e.2).2)))

/-- Result of a full run of the multi-stream receiver. -/
structure MRun where
  streams : List (Nat × MState)
  loopWrites : List (Nat × List Nat)
  flushWrites : List (Nat × List Nat)
  reports : List Report
  broke : Bool
deriving DecidableEq, Repr

/-- A full run of `src/receiver.cpp`: the receive loop from an empty stream
map, then the post-loop flush. -/
def runMulti (cfg : MCfg) (tmo : Nat) (evs : List MEv) : MRun :=
  let r := mLoop cfg tmo [] evs
  let fl := flushM r.streams
  ⟨fl.1, r.writes, fl.2, r.reports, r.broke⟩

/-- All bytes a given stream's sink received, in order. -/
def sinkBytes (sid : Nat) (ws : List (Nat × List Nat)) : List Nat :=
  ((ws.filter (fun w => w.1 == sid)).map (·.2)).flatten

/-! ## The senders -/

/-- The send loop of the legacy sender `src/sender.cpp` (lines 118–151), in
fuel-passing form (each iteration consumes a chunk; `length + 1` fuel is
always enough, see `chunkLoopV1`).  `read` sets the stream's eof bit exactly
when it obtains fewer bytes than requested, so the frame is final iff the
remaining source is shorter than `PAYLOAD_SIZE`; on the final frame the loop
breaks *before* `++seq`, so the returned next-sequence value equals the final
frame's sequence number. -/
def chunkV1Fuel : Nat → List Nat → Nat → List Frame × Nat
  | 0, _, seq => ([], seq)
  | n + 1, src, seq =>
    let chunk := src.take PAYLOAD_SIZE
    if src.length < PAYLOAD_SIZE then ([⟨seq, true, chunk⟩], seq)
    else
      let r := chunkV1Fuel n (src.drop PAYLOAD_SIZE) (seq + 1)
      (⟨seq, false, chunk⟩ :: r.1, r.2)

/-- Frames sent by `src/sender.cpp`'s main loop for a source, with the value
of `seq` when the loop ends (no interruption). -/
def chunkLoopV1 (src : List Nat) (seq : Nat) : List Frame × Nat :=
  chunkV1Fuel (src.length + 1) src seq

/-- The send loop of `part_001` (lines 101–146), fuel-passing form.  A read
that returns no bytes (`n <= 0`) breaks without sending; a short read sends a
final frame and then increments `seq` before breaking
(`++seq; // increment for the final marker consistency`), so the returned
next-sequence value is one *more* than the in-loop final frame's sequence. -/
def chunkV2Fuel : Nat → List Nat → Nat → List Frame × Nat
  | 0, _, seq => ([], seq)
  | n + 1, src, seq =>
    if src.isEmpty then ([], seq)
    else
      let chunk := src.take PAYLOAD_SIZE
      if src.length < PAYLOAD_SIZE then ([⟨seq, true, chunk⟩], seq + 1)
      else
        let r := chunkV2Fuel n (src.drop PAYLOAD_SIZE) (seq + 1)
        (⟨seq, false, chunk⟩ :: r.1, r.2)

/-- Frames sent by `part_001`'s main loop for a source, with the value of
`seq` when the loop ends (no interruption). -/
def chunkLoopV2 (src : List Nat) (seq : Nat) : List Frame × Nat :=
  chunkV2Fuel (src.length + 1) src seq

/-- Delay between final-marker retransmissions:
`std::this_thread::sleep_for(std::chrono::milliseconds(200))`. -/
def RETX_DELAY_MS : Nat := 200

/-- The unconditional retransmission loop at the end of both senders
(`for (int i = 0; i < 3; ++i) { ... sendto(..., HDR_LEN, ...); sleep 200ms; }`):
three header-only (empty payload) final-flagged frames at the current `seq`,
each followed by the fixed delay (in milliseconds). -/
def retransmitFinal (seq : Nat) : List (Frame × Nat) :=
  List.replicate 3 (⟨seq, true, []⟩, RETX_DELAY_MS)

/-- A full uninterrupted run of `src/sender.cpp`: main-loop frames, then the
retransmitted final markers (with their delays). -/
def sendAllV1 (src : List Nat) : List Frame × List (Frame × Nat) :=
  let r := chunkLoopV1 src 1
  (r.1, retransmitFinal r.2)

/-- A full uninterrupted run of `part_001`: main-loop frames, then the
retransmitted final markers (with their delays). -/
def sendAllV2 (src : List Nat) : List Frame × List (Frame × Nat) :=
  let r := chunkLoopV2 src 1
  (r.1, retransmitFinal r.2)

/-! ## Shared concrete scenarios -/

/-- `./receiver -s 7` — subscribed to the single stream 7, file output. -/
def cfgSet7 : MCfg := ⟨false, [7], false⟩

/-- The `{1,2,4-final}` loss scenario of the spec, as wire events for
`src/receiver.cpp`: sequence 3 never arrives, then `recv`-timeout ticks well
past the 10-second finalization timeout. -/
def evsLost3 : List MEv :=
  [MEv.dgram (mkDgram 7 1 0 [10]) 0, MEv.dgram (mkDgram 7 2 0 [20]) 0,
   MEv.dgram (mkDgram 7 4 FLAG_FINAL []) 0, MEv.tick 100, MEv.tick 200]

/-- The same loss scenario as decoded-frame events for `part_000`. -/
def evsLost3L : List LEv :=
  [LEv.frame ⟨1, false, [10]⟩ 0, LEv.frame ⟨2, false, [20]⟩ 0,
   LEv.frame ⟨4, true, []⟩ 0, LEv.tick 100]

/-! ## Claim C8 — stale drop -/

/-- C8: a frame whose sequence is strictly below the stream's `expected`
counter is dropped by `ingest` with no emission and no change to any state
component (buffer, expected, final bookkeeping). -/
theorem C8_stale_drop (st : LState) (f : Frame) (t : Nat)
    (h : f.seq < st.expected) : ingest st f t = (st, []) :=
  ingest_stale st f t h

/-- Witness for C8 at a concrete stale frame. -/
theorem C8_stale_drop_witness :
    (3 : Nat) < 5 ∧
      ingest ⟨5, [(7, [1])], false, 0, 0⟩ ⟨3, true, [9]⟩ 4 =
        (⟨5, [(7, [1])], false, 0, 0⟩, []) :=
  ⟨by decide, C8_stale_drop ⟨5, [(7, [1])], false, 0, 0⟩ ⟨3, true, [9]⟩ 4 (by decide)⟩

/-! ## Claim C2 — loop termination after a forced timeout -/

/-- C2 (code bug): in `AcceptSet` mode, after the `{1,2,4-final}` loss
scenario and two timeout ticks far past the finalization timeout, the
receive loop of `src/receiver.cpp` has *not* terminated: the timeout handler
sets `final_seen = false` (`// allow finishing`), which makes the completion
predicate `final_seen && expected > final_seq` permanently false, so
`all_done` never becomes true and the loop never breaks. -/
theorem C2_timeout_never_completes :
    (mLoop cfgSet7 10 [] evsLost3).broke = false ∧
    (lookupS (mLoop cfgSet7 10 [] evsLost3).streams 7).map
        (fun st => st.core.final_seen) = some false ∧
    (lookupS (mLoop cfgSet7 10 [] evsLost3).streams 7).map
        (fun st => completeL st.core) = some false ∧
    allDone cfgSet7 (mLoop cfgSet7 10 [] evsLost3).streams = false := by
  decide

/-! ## Claim C3 — forced completion on finalization timeout -/

/-- C3 (code bug in `src/receiver.cpp`): on the `{1,2,4-final}` scenario,
`part_000` does exactly what the claim says — the sink holds the bytes of
frames 1 and 2 only and the timeout line reports
`expected=3 final=4 buffered=1` — while `src/receiver.cpp` at the same
input prints only the counter-less per-stream timeout line, drains nothing
further, leaves the sink open, never marks the stream complete, and keeps
looping. -/
theorem C3_forced_completion_divergence :
    (runLegacy 10 evsLost3L).out = [10, 20] ∧
    (runLegacy 10 evsLost3L).reports = [Report.gap 3 4 1] ∧
    (runLegacy 10 evsLost3L).broke = true ∧
    (mLoop cfgSet7 10 [] evsLost3).reports = [Report.timeoutStream 7] ∧
    sinkBytes 7 (mLoop cfgSet7 10 [] evsLost3).writes = [10, 20] ∧
    (lookupS (mLoop cfgSet7 10 [] evsLost3).streams 7).map MState.fout_open =
      some true ∧
    (mLoop cfgSet7 10 [] evsLost3).broke = false := by
  decide

/-! ## Claim C6 — post-loop flush (counterexample half) -/

/-- C6 counterexample: stream 7 received only sequence 2, then the transport
failed.  At loop exit one buffered entry (key 2, unreachable from
`expected = 1`) remains, the post-loop flush writes nothing, and the only
diagnostic of the whole run is the `recv` error — the abandoned buffered
bytes are silently discarded, not reported. -/
theorem C6_counterexample :
    (lookupS (runMulti cfgSet7 10 [MEv.dgram (mkDgram 7 2 0 [9]) 0, MEv.err]).streams 7).map
        (fun st => st.core.buffer) = some [(2, [9])] ∧
    (runMulti cfgSet7 10 [MEv.dgram (mkDgram 7 2 0 [9]) 0, MEv.err]).flushWrites =
      [(7, [])] ∧
    (runMulti cfgSet7 10 [MEv.dgram (mkDgram 7 2 0 [9]) 0, MEv.err]).reports =
      [Report.recvError] := by
  decide

/-! ## Claim C7 — dedup idempotence (counterexample half) -/

/-- C7 counterexample: duplicating the final-marked frame `(seq 2, [65])`
changes the bytes the receiver writes.  Without the duplicate the run emits
`[67, 65, 69, 68]`; with the duplicate, re-ingesting the old final marker
resets `final_seq` from 4 back to 2, so the receiver completes as soon as
`expected` passes 2 and never emits frames 3 and 4 (`[67, 65]`). -/
theorem C7_counterexample :
    legacyBytes 10 (toEvs [⟨2, true, [65]⟩, ⟨4, true, [68]⟩, ⟨2, true, [65]⟩,
        ⟨1, false, [67]⟩, ⟨3, false, [69]⟩]) ≠
    legacyBytes 10 (toEvs [⟨2, true, [65]⟩, ⟨4, true, [68]⟩,
        ⟨1, false, [67]⟩, ⟨3, false, [69]⟩]) := by
  decide

/-! ## Claim C5 — final-marker retransmission (counterexample half) -/

/-- C5 counterexample: for a 7-byte source, `part_001`'s send loop emits its
final marker with sequence 1, but the three retransmitted final markers carry
sequence 2 (the loop increments `seq` after sending an in-loop final), not
the same sequence number as the final marker sent in the loop. -/
theorem C5_counterexample :
    (sendAllV2 [7]).1 = [⟨1, true, [7]⟩] ∧
    (sendAllV2 [7]).2 = List.replicate 3 (⟨2, true, ([] : List Nat)⟩, 200) ∧
    (2 : Nat) ≠ 1 := by
  decide

/-! ## Claim C9 — decode success/failure and the receive-buffer bound -/

theorem byteAt_take (d : List Nat) (n i : Nat) (h : i < n) :
    byteAt (d.take n) i = byteAt d i := by
  simp [byteAt, List.getD_eq_getElem?_getD, List.getElem?_take_of_lt h]

theorem be32at_take (d : List Nat) (n off : Nat) (h : off + 3 < n) :
    be32at (d.take n) off = be32at d off := by
  unfold be32at
  rw [byteAt_take d n off (by omega), byteAt_take d n (off + 1) (by omega),
    byteAt_take d n (off + 2) (by omega), byteAt_take d n (off + 3) (by omega)]

/-- C9 counterexample: a 1213-byte datagram (12-byte header + 1201 payload
bytes) is *not* accepted as-is: `recv` delivers only `MAX_PKT = 1212` bytes,
so the decoded payload is the first 1200 remaining bytes, not all 1201. -/
theorem C9_counterexample :
    ¬ ((recvParse (List.replicate 1213 1)).map Parsed.payload =
       some ((List.replicate 1213 1).drop HDR12)) := by
  intro h
  simp only [recvParse, parseDgram, MAX_PKT, HDR12, PAYLOAD_SIZE, List.take_replicate,
    List.drop_replicate, List.length_replicate] at h
  norm_num at h

theorem decode_spec (d : List Nat) (h : HDR12 ≤ d.length) :
    (∀ e : List Nat, recvParse e = none ↔ e.length < HDR12) ∧
    parseDgram d = some ⟨be32at d 0, be32at d 4, be32at d 8, d.drop HDR12⟩ ∧
    recvParse d =
      some ⟨be32at d 0, be32at d 4, be32at d 8,
        (d.drop HDR12).take PAYLOAD_SIZE⟩ ∧
    ((d.drop HDR12).take PAYLOAD_SIZE).length =
      min (d.length - HDR12) PAYLOAD_SIZE := by
  refine ⟨?_, ?_, ?_, ?_⟩
  · intro e
    have hiff : recvParse e = none ↔ (e.take MAX_PKT).length < HDR12 := by
      unfold recvParse parseDgram
      by_cases hc : (e.take MAX_PKT).length < HDR12
      · exact iff_of_true (by rw [if_pos hc]) hc
      · exact iff_of_false (by rw [if_neg hc]; simp) hc
    rw [hiff, List.length_take]
    simp only [MAX_PKT, HDR12, PAYLOAD_SIZE]
    omega
  · have : ¬ d.length < HDR12 := by omega
    simp [parseDgram, this]
  · have hlen : ¬ (d.take MAX_PKT).length < HDR12 := by
      simp only [List.length_take, MAX_PKT, HDR12, PAYLOAD_SIZE] at h ⊢
      omega
    simp only [recvParse, parseDgram, hlen, if_false, if_neg hlen]
    rw [be32at_take d MAX_PKT 0 (by simp [MAX_PKT, HDR12, PAYLOAD_SIZE]),
      be32at_take d MAX_PKT 4 (by simp [MAX_PKT, HDR12, PAYLOAD_SIZE]),
      be32at_take d MAX_PKT 8 (by simp [MAX_PKT, HDR12, PAYLOAD_SIZE]),
      List.drop_take]
    norm_num [MAX_PKT, HDR12, PAYLOAD_SIZE]
  · simp only [List.length_take, List.length_drop]
    omega

/-- C9 (amended): decoding fails iff fewer than `HDR_LEN = 12` bytes were
received; otherwise it succeeds with the three header words read big-endian
at offsets 0, 4 and 8 and the payload equal to every remaining *received*
byte.  The decode step itself (`parseDgram`) imposes no payload ceiling, but
the `recv` call reads at most `MAX_PKT = 1212` bytes, so the payload of an
oversized datagram is capped at `PAYLOAD_SIZE = 1200` bytes. -/
theorem C9_decode (d : List Nat) (h : HDR12 ≤ d.length) :
    (∀ e : List Nat, recvParse e = none ↔ e.length < HDR12) ∧
    parseDgram d = some ⟨be32at d 0, be32at d 4, be32at d 8, d.drop HDR12⟩ ∧
    recvParse d =
      some ⟨be32at d 0, be32at d 4, be32at d 8,
        (d.drop HDR12).take PAYLOAD_SIZE⟩ ∧
    ((d.drop HDR12).take PAYLOAD_SIZE).length =
      min (d.length - HDR12) PAYLOAD_SIZE :=
  decode_spec d h

/-- Witness for C9 at a 13-byte datagram. -/
theorem C9_decode_witness :
    HDR12 ≤ (mkDgram 1 2 3 [5]).length ∧
    ((∀ e : List Nat, recvParse e = none ↔ e.length < HDR12) ∧
      parseDgram (mkDgram 1 2 3 [5]) =
        some ⟨be32at (mkDgram 1 2 3 [5]) 0, be32at (mkDgram 1 2 3 [5]) 4,
          be32at (mkDgram 1 2 3 [5]) 8, (mkDgram 1 2 3 [5]).drop HDR12⟩ ∧
      recvParse (mkDgram 1 2 3 [5]) =
        some ⟨be32at (mkDgram 1 2 3 [5]) 0, be32at (mkDgram 1 2 3 [5]) 4,
          be32at (mkDgram 1 2 3 [5]) 8,
          ((mkDgram 1 2 3 [5]).drop HDR12).take PAYLOAD_SIZE⟩ ∧
      (((mkDgram 1 2 3 [5]).drop HDR12).take PAYLOAD_SIZE).length =
        min ((mkDgram 1 2 3 [5]).length - HDR12) PAYLOAD_SIZE) :=
  ⟨by decide, C9_decode (mkDgram 1 2 3 [5]) (by decide)⟩

/-! ## Claim C10 — only flag bit 0 matters -/

theorem byteAt_eq_of_take_eq (d1 d2 : List Nat) (n i : Nat) (h : d1.take n = d2.take n)
    (hi : i < n) : byteAt d1 i = byteAt d2 i := by
  rw [← byteAt_take d1 n i hi, ← byteAt_take d2 n i hi, h]

/-- C10: the multi-stream receiver reads the flags word only through
`flags & FLAG_FINAL`.  Two received datagrams of header length that agree on
the first 8 bytes, on the payload, and on bit 0 of the flags word — while
bits 1–31 of the flags may differ arbitrarily — are processed identically
(same stream map, same sink writes, same diagnostics, same loop decision),
and neither is rejected. -/
theorem C10_flags_bit0 (cfg : MCfg) (streams : List (Nat × MState))
    (d1 d2 : List Nat) (t : Nat)
    (hlen : d1.length = d2.length) (h12 : HDR12 ≤ d1.length)
    (hpre : d1.take 8 = d2.take 8) (hpost : d1.drop HDR12 = d2.drop HDR12)
    (hbit0 : be32at d1 8 % 2 = be32at d2 8 % 2) :
    mDgram cfg streams d1 t = mDgram cfg streams d2 t ∧
      (recvParse d1).isSome ∧ (recvParse d2).isSome := by
  have h12' : HDR12 ≤ d2.length := hlen ▸ h12
  obtain ⟨-, -, hp1, -⟩ := decode_spec d1 h12
  obtain ⟨-, -, hp2, -⟩ := decode_spec d2 h12'
  have hsid : be32at d1 0 = be32at d2 0 := by
    unfold be32at
    rw [byteAt_eq_of_take_eq d1 d2 8 0 hpre (by omega),
      byteAt_eq_of_take_eq d1 d2 8 1 hpre (by omega),
      byteAt_eq_of_take_eq d1 d2 8 2 hpre (by omega),
      byteAt_eq_of_take_eq d1 d2 8 3 hpre (by omega)]
  have hseq : be32at d1 4 = be32at d2 4 := by
    unfold be32at
    rw [byteAt_eq_of_take_eq d1 d2 8 4 hpre (by omega),
      byteAt_eq_of_take_eq d1 d2 8 5 hpre (by omega),
      byteAt_eq_of_take_eq d1 d2 8 6 hpre (by omega),
      byteAt_eq_of_take_eq d1 d2 8 7 hpre (by omega)]
  have hfin : be32at d1 8 &&& FLAG_FINAL = be32at d2 8 &&& FLAG_FINAL := by
    simp only [FLAG_FINAL, Nat.and_one_is_mod]
    exact hbit0
  refine ⟨?_, by rw [hp1]; rfl, by rw [hp2]; rfl⟩
  simp only [mDgram, hp1, hp2, hsid, hseq, hfin, hpost]

/-- Witness for C10: flags words `0x00000000` and `0xFE000000` (reserved bits
set) lead to identical processing on a sample state. -/
theorem C10_flags_bit0_witness :
    ((mkDgram 7 1 0 [3]).length = (mkDgram 7 1 (254 * 2 ^ 24) [3]).length ∧
      HDR12 ≤ (mkDgram 7 1 0 [3]).length ∧
      (mkDgram 7 1 0 [3]).take 8 = (mkDgram 7 1 (254 * 2 ^ 24) [3]).take 8 ∧
      (mkDgram 7 1 0 [3]).drop HDR12 =
        (mkDgram 7 1 (254 * 2 ^ 24) [3]).drop HDR12 ∧
      be32at (mkDgram 7 1 0 [3]) 8 % 2 =
        be32at (mkDgram 7 1 (254 * 2 ^ 24) [3]) 8 % 2) ∧
    (mDgram cfgSet7 [] (mkDgram 7 1 0 [3]) 0 =
        mDgram cfgSet7 [] (mkDgram 7 1 (254 * 2 ^ 24) [3]) 0 ∧
      (recvParse (mkDgram 7 1 0 [3])).isSome ∧
      (recvParse (mkDgram 7 1 (254 * 2 ^ 24) [3])).isSome) :=
  ⟨⟨by decide, by decide, by decide, by decide, by decide⟩,
    C10_flags_bit0 cfgSet7 [] (mkDgram 7 1 0 [3]) (mkDgram 7 1 (254 * 2 ^ 24) [3]) 0
      (by decide) (by decide) (by decide) (by decide) (by decide)⟩

/-! ## Invariants of the reassembly state machine -/

/-- Every buffered key is at least `e`. -/
def keysGeB (b : List (Nat × List Nat)) (e : Nat) : Prop :=
  ∀ k v, lookupBuf b k = some v → e ≤ k

/-- Every buffered key is strictly above `e` (the receivers' loop invariant:
the drain always removes the entry at `expected` before moving on). -/
def keysGtB (b : List (Nat × List Nat)) (e : Nat) : Prop :=
  ∀ k v, lookupBuf b k = some v → e < k

theorem lookupBuf_none_of_keysGt (b : List (Nat × List Nat)) (e : Nat)
    (h : keysGtB b e) : lookupBuf b e = none := by
  cases hl : lookupBuf b e with
  | none => rfl
  | some v => exact absurd (h e v hl) (lt_irrefl e)

theorem drainFuel_expected_le (n : Nat) (st : LState) :
    st.expected ≤ (drainFuel n st).1.expected := by
  induction n generalizing st with
  | zero => simp [drainFuel]
  | succ n ih =>
    simp only [drainFuel]
    cases h : lookupBuf st.buffer st.expected with
    | none => simp
    | some v =>
      have := ih { st with buffer := eraseBuf st.buffer st.expected,
                           expected := st.expected + 1 }
      simp only at this ⊢
      omega

theorem drainFuel_final (n : Nat) (st : LState) :
    (drainFuel n st).1.final_seen = st.final_seen ∧
    (drainFuel n st).1.final_seq = st.final_seq ∧
    (drainFuel n st).1.final_at = st.final_at := by
  induction n generalizing st with
  | zero => simp [drainFuel]
  | succ n ih =>
    simp only [drainFuel]
    cases h : lookupBuf st.buffer st.expected with
    | none => simp
    | some v =>
      have := ih { st with buffer := eraseBuf st.buffer st.expected,
                           expected := st.expected + 1 }
      simp only at this ⊢
      exact this

theorem drainFuel_keysGt (n : Nat) (st : LState) (hn : st.buffer.length ≤ n)
    (h : keysGeB st.buffer st.expected) :
    keysGtB (drainFuel n st).1.buffer (drainFuel n st).1.expected := by
  induction n generalizing st with
  | zero =>
    have : st.buffer = [] := List.length_eq_zero.mp (Nat.le_zero.mp hn)
    intro k v hk
    simp [drainFuel, this, lookupBuf] at hk
  | succ n ih =>
    simp only [drainFuel]
    cases hl : lookupBuf st.buffer st.expected with
    | none =>
      intro k v hk
      simp only at hk
      have hge := h k v hk
      rcases Nat.lt_or_ge st.expected k with hlt | hge2
      · exact hlt
      · have : k = st.expected := by omega
        rw [this] at hk
        rw [hk] at hl
        exact absurd hl (by simp)
    | some v =>
      have hlen : (eraseBuf st.buffer st.expected).length ≤ n := by
        have := eraseBuf_length_lt st.buffer st.expected v hl
        omega
      have hge : keysGeB (eraseBuf st.buffer st.expected) (st.expected + 1) := by
        intro k w hk
        rw [lookupBuf_eraseBuf] at hk
        by_cases hke : k = st.expected
        · simp [hke] at hk
        · rw [if_neg hke] at hk
          have := h k w hk
          omega
      exact ih { st with buffer := eraseBuf st.buffer st.expected,
                         expected := st.expected + 1 } hlen hge

theorem drainFuel_none (n : Nat) (st : LState)
    (h : lookupBuf st.buffer st.expected = none) : drainFuel n st = (st, []) := by
  cases n with
  | zero => rfl
  | succ n => simp [drainFuel, h]

theorem drain_eq_of_keysGt (st : LState) (h : keysGtB st.buffer st.expected) :
    drain st = (st, []) :=
  drainFuel_none st.buffer.length st (lookupBuf_none_of_keysGt _ _ h)

theorem ingest_keysGt (st : LState) (f : Frame) (t : Nat)
    (h : keysGtB st.buffer st.expected) :
    keysGtB (ingest st f t).1.buffer (ingest st f t).1.expected := by
  unfold ingest
  by_cases h1 : f.seq < st.expected
  · simpa [h1] using h
  · rw [if_neg h1]
    by_cases h2 : f.seq = st.expected
    · have hge : keysGeB st.buffer (st.expected + 1) := by
        intro k v hk
        exact h k v hk
      have hd := drainFuel_keysGt st.buffer.length
        { st with expected := st.expected + 1 } (le_refl _) hge
      cases hf : f.fin <;> simp only [h2, if_pos rfl, hf, if_true, if_false,
        Bool.false_eq_true] <;> simpa [drain] using hd
    · rw [if_neg h2]
      by_cases h3 : (lookupBuf st.buffer f.seq).isSome
      · cases hf : f.fin <;> simp only [h3, if_true, hf, if_false,
          Bool.false_eq_true] <;> simpa using h
      · have hins : keysGtB ((f.seq, f.payload) :: st.buffer) st.expected := by
          intro k v hk
          simp only [lookupBuf] at hk
          by_cases hke : f.seq = k
          · omega
          · rw [if_neg hke] at hk
            exact h k v hk
        cases hf : f.fin <;>
          simp only [h3, if_false, if_true, hf, Bool.false_eq_true] <;>
          simpa using hins

theorem ingest_expected_le (st : LState) (f : Frame) (t : Nat) :
    st.expected ≤ (ingest st f t).1.expected := by
  unfold ingest
  by_cases h1 : f.seq < st.expected
  · simp [h1]
  · rw [if_neg h1]
    by_cases h2 : f.seq = st.expected
    · have := drainFuel_expected_le st.buffer.length { st with expected := st.expected + 1 }
      cases hf : f.fin <;> simp only [h2, if_pos rfl, hf, if_true, if_false,
        Bool.false_eq_true, drain] <;> simp only at this <;> omega
    · rw [if_neg h2]
      by_cases h3 : (lookupBuf st.buffer f.seq).isSome <;>
        cases hf : f.fin <;> simp [h3, hf]

/-- A sequence number already accounted for: either it was emitted
(`k < expected`) or it sits in the buffer. -/
def bufOrPast (st : LState) (k : Nat) : Prop :=
  k < st.expected ∨ (lookupBuf st.buffer k).isSome

theorem drainFuel_bufOrPast (n : Nat) (st : LState) (k : Nat)
    (hn : st.buffer.length ≤ n) (h : bufOrPast st k) :
    bufOrPast (drainFuel n st).1 k := by
  induction n generalizing st with
  | zero =>
    have : st.buffer = [] := List.length_eq_zero.mp (Nat.le_zero.mp hn)
    simpa [drainFuel] using h
  | succ n ih =>
    simp only [drainFuel]
    cases hl : lookupBuf st.buffer st.expected with
    | none => simpa using h
    | some v =>
      have hlen : (eraseBuf st.buffer st.expected).length ≤ n := by
        have := eraseBuf_length_lt st.buffer st.expected v hl
        omega
      have hnext : bufOrPast { st with buffer := eraseBuf st.buffer st.expected,
                                       expected := st.expected + 1 } k := by
        rcases h with hlt | hsome
        · exact Or.inl (by simp; omega)
        · by_cases hke : k = st.expected
          · exact Or.inl (by simp; omega)
          · refine Or.inr ?_
            simpa [lookupBuf_eraseBuf, hke] using hsome
      exact ih _ hlen hnext

theorem ingest_bufOrPast (st : LState) (f : Frame) (t : Nat) (k : Nat)
    (h : bufOrPast st k) : bufOrPast (ingest st f t).1 k := by
  unfold ingest
  by_cases h1 : f.seq < st.expected
  · simpa [h1] using h
  · rw [if_neg h1]
    by_cases h2 : f.seq = st.expected
    · have hb : bufOrPast { st with expected := st.expected + 1 } k := by
        rcases h with hlt | hsome
        · exact Or.inl (by simp; omega)
        · exact Or.inr (by simpa using hsome)
      have hd := drainFuel_bufOrPast st.buffer.length
        { st with expected := st.expected + 1 } k (le_refl _) hb
      cases hf : f.fin <;> simp only [h2, if_pos rfl, hf, if_true, if_false,
        Bool.false_eq_true, drain] <;>
        [skip; exact hd]
      · rcases hd with hlt | hsome
        · exact Or.inl (by simpa using hlt)
        · exact Or.inr (by simpa using hsome)
    · rw [if_neg h2]
      by_cases h3 : (lookupBuf st.buffer f.seq).isSome
      · cases hf : f.fin <;> simp only [h3, if_true, hf, if_false,
          Bool.false_eq_true] <;> simpa using h
      · have hcons : bufOrPast { st with buffer := (f.seq, f.payload) :: st.buffer } k := by
          rcases h with hlt | hsome
          · exact Or.inl (by simpa using hlt)
          · refine Or.inr ?_
            simp only [lookupBuf]
            by_cases hke : f.seq = k
            · simp [hke]
            · simpa [hke] using hsome
        cases hf : f.fin <;> simp only [h3, if_false, if_true, hf,
          Bool.false_eq_true] <;> simpa using hcons

/-- After ingesting a non-stale frame, its sequence number is accounted for. -/
theorem ingest_self_bufOrPast (st : LState) (f : Frame) (t : Nat)
    (h1 : ¬ f.seq < st.expected) : bufOrPast (ingest st f t).1 f.seq := by
  unfold ingest
  rw [if_neg h1]
  by_cases h2 : f.seq = st.expected
  · have hd := drainFuel_expected_le st.buffer.length { st with expected := st.expected + 1 }
    simp only at hd
    have : f.seq < (drain { st with expected := st.expected + 1 }).1.expected := by
      simp only [drain]
      omega
    cases hf : f.fin <;> simp only [h2, if_pos rfl, hf, if_true, if_false,
      Bool.false_eq_true] <;> exact Or.inl (by simp only [h2] at this ⊢; exact this)
  · rw [if_neg h2]
    by_cases h3 : (lookupBuf st.buffer f.seq).isSome
    · cases hf : f.fin <;> simp only [h3, if_true, hf, if_false,
        Bool.false_eq_true] <;> exact Or.inr (by simpa using h3)
    · cases hf : f.fin <;> simp only [h3, if_false, if_true, hf,
        Bool.false_eq_true] <;> exact Or.inr (by simp [lookupBuf])

/-- Ingesting a frame without the final flag leaves the final bookkeeping
untouched. -/
theorem ingest_final_of_not_fin (st : LState) (f : Frame) (t : Nat)
    (hf : f.fin = false) :
    (ingest st f t).1.final_seen = st.final_seen ∧
    (ingest st f t).1.final_seq = st.final_seq ∧
    (ingest st f t).1.final_at = st.final_at := by
  unfold ingest
  by_cases h1 : f.seq < st.expected
  · simp [h1]
  · rw [if_neg h1]
    by_cases h2 : f.seq = st.expected
    · have := drainFuel_final st.buffer.length { st with expected := st.expected + 1 }
      simp only at this
      simp only [h2, if_pos rfl, hf, Bool.false_eq_true, if_false, drain]
      exact this
    · rw [if_neg h2]
      by_cases h3 : (lookupBuf st.buffer f.seq).isSome <;> simp [h3, hf]

/-- Ingesting a non-stale final-flagged frame records it. -/
theorem ingest_final_of_fin (st : LState) (f : Frame) (t : Nat)
    (h1 : ¬ f.seq < st.expected) (hf : f.fin = true) :
    (ingest st f t).1.final_seen = true ∧
    (ingest st f t).1.final_seq = f.seq ∧
    (ingest st f t).1.final_at = t := by
  unfold ingest
  rw [if_neg h1]
  by_cases h2 : f.seq = st.expected
  · simp [h2, hf]
  · rw [if_neg h2]
    by_cases h3 : (lookupBuf st.buffer f.seq).isSome <;> simp [h3, hf]

/-! ## Lemmas about the legacy receive loop -/

theorem legacyLoop_nil (tmo : Nat) (st : LState) :
    legacyLoop tmo st [] = ⟨st, [], [], false⟩ := rfl

theorem legacyLoop_frame_stale (tmo : Nat) (st : LState) (f : Frame) (t : Nat)
    (rest : List LEv) (h : f.seq < st.expected) :
    legacyLoop tmo st (LEv.frame f t :: rest) = legacyLoop tmo st rest := by
  simp [legacyLoop, h]

theorem legacyLoop_frame_break (tmo : Nat) (st : LState) (f : Frame) (t : Nat)
    (rest : List LEv) (h1 : ¬ f.seq < st.expected)
    (h2 : completeL (ingest st f t).1 = true) :
    legacyLoop tmo st (LEv.frame f t :: rest) =
      ⟨(ingest st f t).1, (ingest st f t).2, [], true⟩ := by
  simp [legacyLoop, h1, h2]

theorem legacyLoop_frame_go (tmo : Nat) (st : LState) (f : Frame) (t : Nat)
    (rest : List LEv) (h1 : ¬ f.seq < st.expected)
    (h2 : completeL (ingest st f t).1 = false) :
    legacyLoop tmo st (LEv.frame f t :: rest) =
      ⟨(legacyLoop tmo (ingest st f t).1 rest).state,
        (ingest st f t).2 ++ (legacyLoop tmo (ingest st f t).1 rest).out,
        (legacyLoop tmo (ingest st f t).1 rest).reports,
        (legacyLoop tmo (ingest st f t).1 rest).broke⟩ := by
  simp [legacyLoop, h1, h2]

theorem legacyLoop_tick_fire (tmo : Nat) (st : LState) (t : Nat) (rest : List LEv)
    (h : (st.final_seen && decide (tmo < t - st.final_at)) = true) :
    legacyLoop tmo st (LEv.tick t :: rest) =
      ⟨st, [], [Report.gap st.expected st.final_seq st.buffer.length], true⟩ := by
  simp [legacyLoop, h]

theorem legacyLoop_tick_skip (tmo : Nat) (st : LState) (t : Nat) (rest : List LEv)
    (h : (st.final_seen && decide (tmo < t - st.final_at)) = false) :
    legacyLoop tmo st (LEv.tick t :: rest) = legacyLoop tmo st rest := by
  simp [legacyLoop, h]

theorem legacyLoop_append (tmo : Nat) (st : LState) (a b : List LEv) :
    legacyLoop tmo st (a ++ b) =
      if (legacyLoop tmo st a).broke then legacyLoop tmo st a
      else
        ⟨(legacyLoop tmo (legacyLoop tmo st a).state b).state,
          (legacyLoop tmo st a).out ++ (legacyLoop tmo (legacyLoop tmo st a).state b).out,
          (legacyLoop tmo st a).reports ++
            (legacyLoop tmo (legacyLoop tmo st a).state b).reports,
          (legacyLoop tmo (legacyLoop tmo st a).state b).broke⟩ := by
  induction a generalizing st with
  | nil => simp [legacyLoop_nil]
  | cons ev rest ih =>
    cases ev with
    | frame f t =>
      by_cases h1 : f.seq < st.expected
      · rw [List.cons_append, legacyLoop_frame_stale tmo st f t _ h1,
          legacyLoop_frame_stale tmo st f t rest h1, ih]
      · cases h2 : completeL (ingest st f t).1 with
        | true =>
          rw [List.cons_append, legacyLoop_frame_break tmo st f t _ h1 h2,
            legacyLoop_frame_break tmo st f t rest h1 h2]
          simp
        | false =>
          rw [List.cons_append, legacyLoop_frame_go tmo st f t _ h1 h2,
            legacyLoop_frame_go tmo st f t rest h1 h2, ih]
          by_cases h3 : (legacyLoop tmo (ingest st f t).1 rest).broke
          · simp [h3]
          · simp [h3, List.append_assoc]
    | tick t =>
      cases h1 : (st.final_seen && decide (tmo < t - st.final_at)) with
      | true =>
        rw [List.cons_append, legacyLoop_tick_fire tmo st t _ h1,
          legacyLoop_tick_fire tmo st t rest h1]
        simp
      | false =>
        rw [List.cons_append, legacyLoop_tick_skip tmo st t _ h1,
          legacyLoop_tick_skip tmo st t rest h1, ih]

theorem legacyLoop_expected_le (tmo : Nat) (st : LState) (evs : List LEv) :
    st.expected ≤ (legacyLoop tmo st evs).state.expected := by
  induction evs generalizing st with
  | nil => simp [legacyLoop_nil]
  | cons ev rest ih =>
    cases ev with
    | frame f t =>
      by_cases h1 : f.seq < st.expected
      · rw [legacyLoop_frame_stale tmo st f t rest h1]
        exact ih st
      · cases h2 : completeL (ingest st f t).1 with
        | true =>
          rw [legacyLoop_frame_break tmo st f t rest h1 h2]
          exact ingest_expected_le st f t
        | false =>
          rw [legacyLoop_frame_go tmo st f t rest h1 h2]
          exact le_trans (ingest_expected_le st f t) (ih (ingest st f t).1)
    | tick t =>
      cases h1 : (st.final_seen && decide (tmo < t - st.final_at)) with
      | true => rw [legacyLoop_tick_fire tmo st t rest h1]
      | false =>
        rw [legacyLoop_tick_skip tmo st t rest h1]
        exact ih st

theorem legacyLoop_bufOrPast (tmo : Nat) (st : LState) (evs : List LEv) (k : Nat)
    (h : bufOrPast st k) : bufOrPast (legacyLoop tmo st evs).state k := by
  induction evs generalizing st with
  | nil => simpa [legacyLoop_nil] using h
  | cons ev rest ih =>
    cases ev with
    | frame f t =>
      by_cases h1 : f.seq < st.expected
      · rw [legacyLoop_frame_stale tmo st f t rest h1]
        exact ih st h
      · cases h2 : completeL (ingest st f t).1 with
        | true =>
          rw [legacyLoop_frame_break tmo st f t rest h1 h2]
          exact ingest_bufOrPast st f t k h
        | false =>
          rw [legacyLoop_frame_go tmo st f t rest h1 h2]
          exact ih (ingest st f t).1 (ingest_bufOrPast st f t k h)
    | tick t =>
      cases h1 : (st.final_seen && decide (tmo < t - st.final_at)) with
      | true =>
        rw [legacyLoop_tick_fire tmo st t rest h1]
        exact h
      | false =>
        rw [legacyLoop_tick_skip tmo st t rest h1]
        exact ih st h

theorem legacyLoop_keysGt (tmo : Nat) (st : LState) (evs : List LEv)
    (h : keysGtB st.buffer st.expected) :
    keysGtB (legacyLoop tmo st evs).state.buffer
      (legacyLoop tmo st evs).state.expected := by
  induction evs generalizing st with
  | nil => simpa [legacyLoop_nil] using h
  | cons ev rest ih =>
    cases ev with
    | frame f t =>
      by_cases h1 : f.seq < st.expected
      · rw [legacyLoop_frame_stale tmo st f t rest h1]
        exact ih st h
      · cases h2 : completeL (ingest st f t).1 with
        | true =>
          rw [legacyLoop_frame_break tmo st f t rest h1 h2]
          exact ingest_keysGt st f t h
        | false =>
          rw [legacyLoop_frame_go tmo st f t rest h1 h2]
          exact ih (ingest st f t).1 (ingest_keysGt st f t h)
    | tick t =>
      cases h1 : (st.final_seen && decide (tmo < t - st.final_at)) with
      | true =>
        rw [legacyLoop_tick_fire tmo st t rest h1]
        exact h
      | false =>
        rw [legacyLoop_tick_skip tmo st t rest h1]
        exact ih st h

theorem legacyLoop_not_complete (tmo : Nat) (st : LState) (evs : List LEv)
    (h : completeL st = false)
    (hb : (legacyLoop tmo st evs).broke = false) :
    completeL (legacyLoop tmo st evs).state = false := by
  induction evs generalizing st with
  | nil => simpa [legacyLoop_nil] using h
  | cons ev rest ih =>
    cases ev with
    | frame f t =>
      by_cases h1 : f.seq < st.expected
      · rw [legacyLoop_frame_stale tmo st f t rest h1] at hb ⊢
        exact ih st h hb
      · cases h2 : completeL (ingest st f t).1 with
        | true =>
          rw [legacyLoop_frame_break tmo st f t rest h1 h2] at hb
          simp at hb
        | false =>
          rw [legacyLoop_frame_go tmo st f t rest h1 h2] at hb ⊢
          exact ih (ingest st f t).1 h2 hb
    | tick t =>
      cases h1 : (st.final_seen && decide (tmo < t - st.final_at)) with
      | true =>
        rw [legacyLoop_tick_fire tmo st t rest h1] at hb
        simp at hb
      | false =>
        rw [legacyLoop_tick_skip tmo st t rest h1] at hb ⊢
        exact ih st h hb

/-- If every final-flagged frame among the remaining events carries sequence
`v` and every event is timestamped 0, then final bookkeeping already at
`(true, v, 0)` stays there for the rest of the loop. -/
theorem legacyLoop_finFixed (tmo : Nat) (st : LState) (evs : List LEv) (v : Nat)
    (hfs : st.final_seen = true) (hfq : st.final_seq = v) (hfa : st.final_at = 0)
    (hall : ∀ f t, LEv.frame f t ∈ evs → (f.fin = true → f.seq = v) ∧ t = 0) :
    (legacyLoop tmo st evs).state.final_seen = true ∧
    (legacyLoop tmo st evs).state.final_seq = v ∧
    (legacyLoop tmo st evs).state.final_at = 0 := by
  induction evs generalizing st with
  | nil => simp [legacyLoop_nil, hfs, hfq, hfa]
  | cons ev rest ih =>
    have hall' : ∀ f t, LEv.frame f t ∈ rest → (f.fin = true → f.seq = v) ∧ t = 0 :=
      fun f t hm => hall f t (List.mem_cons_of_mem _ hm)
    cases ev with
    | frame f t =>
      have hft := hall f t (List.mem_cons_self _ _)
      by_cases h1 : f.seq < st.expected
      · rw [legacyLoop_frame_stale tmo st f t rest h1]
        exact ih st hfs hfq hfa hall'
      · have hfin : (ingest st f t).1.final_seen = true ∧
            (ingest st f t).1.final_seq = v ∧ (ingest st f t).1.final_at = 0 := by
          cases hf : f.fin with
          | false =>
            obtain ⟨a, b, c⟩ := ingest_final_of_not_fin st f t hf
            exact ⟨by rw [a, hfs], by rw [b, hfq], by rw [c, hfa]⟩
          | true =>
            obtain ⟨a, b, c⟩ := ingest_final_of_fin st f t h1 hf
            exact ⟨a, by rw [b]; exact hft.1 hf, by rw [c]; exact hft.2⟩
        cases h2 : completeL (ingest st f t).1 with
        | true =>
          rw [legacyLoop_frame_break tmo st f t rest h1 h2]
          exact hfin
        | false =>
          rw [legacyLoop_frame_go tmo st f t rest h1 h2]
          exact ih (ingest st f t).1 hfin.1 hfin.2.1 hfin.2.2 hall'
    | tick t =>
      cases h1 : (st.final_seen && decide (tmo < t - st.final_at)) with
      | true =>
        rw [legacyLoop_tick_fire tmo st t rest h1]
        exact ⟨hfs, hfq, hfa⟩
      | false =>
        rw [legacyLoop_tick_skip tmo st t rest h1]
        exact ih st hfs hfq hfa hall'

/-! ## Claim C7 — dedup idempotence (amended half) -/

theorem toEvs_append (a b : List Frame) : toEvs (a ++ b) = toEvs a ++ toEvs b :=
  List.map_append _ a b

theorem toEvs_cons (f : Frame) (fs : List Frame) :
    toEvs (f :: fs) = LEv.frame f 0 :: toEvs fs := rfl

theorem mem_toEvs (g : Frame) (t : Nat) (fs : List Frame)
    (h : LEv.frame g t ∈ toEvs fs) : g ∈ fs ∧ t = 0 := by
  rcases List.mem_map.mp h with ⟨g1, hg1, he⟩
  injection he with e1 e2
  subst e1
  exact ⟨hg1, e2.symm⟩

theorem legacyBytes_eq (tmo : Nat) (evs : List LEv) :
    legacyBytes tmo evs =
      (legacyLoop tmo initL evs).out ++
        (drain (legacyLoop tmo initL evs).state).2 := rfl

/-- Re-ingesting a frame whose key already sits in the buffer only re-runs
the final-flag update. -/
theorem ingest_dup (st : LState) (f : Frame) (t : Nat)
    (h1 : ¬ f.seq < st.expected) (h2 : ¬ f.seq = st.expected)
    (h3 : (lookupBuf st.buffer f.seq).isSome) :
    ingest st f t =
      (if f.fin then { st with final_seen := true, final_seq := f.seq,
                               final_at := t }
       else st, []) := by
  unfold ingest
  rw [if_neg h1, if_neg h2, if_pos h3]
  cases f.fin <;> simp

theorem lstate_eta_final (st : LState) (v t : Nat)
    (hfs : st.final_seen = true) (hfq : st.final_seq = v) (hfa : st.final_at = t) :
    ({ st with final_seen := true, final_seq := v, final_at := t } : LState) = st := by
  cases st
  simp_all

theorem keysGt_initL : keysGtB initL.buffer initL.expected := by
  intro k v hk
  simp [initL, lookupBuf] at hk

theorem completeL_initL : completeL initL = false := rfl

/-- C7 (amended): a duplicated delivery is invisible to the sink, at every
position of the duplicate and even when the second copy's payload differs,
provided the duplicated frame is not final-flagged, or every final-flagged
frame delivered up to (and including) the first copy carries the same
sequence number as the duplicated frame. -/
theorem C7_dedup (tmo : Nat) (pre mid post : List Frame) (f f2 : Frame)
    (hseq : f2.seq = f.seq) (hfin : f2.fin = f.fin)
    (hcond : f.fin = false ∨ ∀ g ∈ pre ++ f :: mid, g.fin = true → g.seq = f.seq) :
    legacyBytes tmo (toEvs (pre ++ f :: (mid ++ f2 :: post))) =
      legacyBytes tmo (toEvs (pre ++ f :: (mid ++ post))) := by
  have hsplit1 : toEvs (pre ++ f :: (mid ++ f2 :: post)) =
      toEvs (pre ++ f :: mid) ++ (LEv.frame f2 0 :: toEvs post) := by
    rw [show pre ++ f :: (mid ++ f2 :: post) = (pre ++ f :: mid) ++ f2 :: post by
          simp,
        toEvs_append, toEvs_cons]
  have hsplit2 : toEvs (pre ++ f :: (mid ++ post)) =
      toEvs (pre ++ f :: mid) ++ toEvs post := by
    rw [show pre ++ f :: (mid ++ post) = (pre ++ f :: mid) ++ post by simp,
      toEvs_append]
  rw [legacyBytes_eq, legacyBytes_eq, hsplit1, hsplit2,
    legacyLoop_append tmo initL (toEvs (pre ++ f :: mid))
      (LEv.frame f2 0 :: toEvs post),
    legacyLoop_append tmo initL (toEvs (pre ++ f :: mid)) (toEvs post)]
  by_cases hbr : (legacyLoop tmo initL (toEvs (pre ++ f :: mid))).broke
  · rw [if_pos hbr, if_pos hbr]
  · rw [if_neg hbr, if_neg hbr]
    suffices hsuff : legacyLoop tmo
        (legacyLoop tmo initL (toEvs (pre ++ f :: mid))).state
        (LEv.frame f2 0 :: toEvs post) =
      legacyLoop tmo
        (legacyLoop tmo initL (toEvs (pre ++ f :: mid))).state
        (toEvs post) by
      rw [hsuff]
    set sA := (legacyLoop tmo initL (toEvs (pre ++ f :: mid))).state with hsA
    by_cases hst2 : f2.seq < sA.expected
    · exact legacyLoop_frame_stale tmo sA f2 0 (toEvs post) hst2
    · -- the second copy is not stale, so the first copy cannot have been
      -- stale either; locate the first copy's processing.
      have hdist : toEvs (pre ++ f :: mid) =
          toEvs pre ++ LEv.frame f 0 :: toEvs mid := by
        rw [toEvs_append, toEvs_cons]
      have hPapp := legacyLoop_append tmo initL (toEvs pre)
        (LEv.frame f 0 :: toEvs mid)
      by_cases hbrP : (legacyLoop tmo initL (toEvs pre)).broke
      · rw [hdist, hPapp, if_pos hbrP] at hbr
        exact absurd hbrP hbr
      · rw [hdist, hPapp, if_neg hbrP] at hbr hsA
        simp only at hbr hsA
        set sP := (legacyLoop tmo initL (toEvs pre)).state with hsP
        by_cases hstf : f.seq < sP.expected
        · -- first copy stale: `expected` only grows, contradiction with hst2
          rw [legacyLoop_frame_stale tmo sP f 0 (toEvs mid) hstf] at hsA hbr
          have hmono := legacyLoop_expected_le tmo sP (toEvs mid)
          rw [← hsA] at hmono
          omega
        · cases h2c : completeL (ingest sP f 0).1 with
          | true =>
            rw [legacyLoop_frame_break tmo sP f 0 (toEvs mid) hstf h2c] at hbr
            simp at hbr
          | false =>
            rw [legacyLoop_frame_go tmo sP f 0 (toEvs mid) hstf h2c] at hsA hbr
            simp only at hsA hbr
            -- the first copy's sequence is accounted for in sA
            have hH : bufOrPast sA f.seq := by
              rw [hsA]
              exact legacyLoop_bufOrPast tmo (ingest sP f 0).1 (toEvs mid) f.seq
                (ingest_self_bufOrPast sP f 0 hstf)
            have hkeys : keysGtB sA.buffer sA.expected := by
              rw [hsA]
              exact legacyLoop_keysGt tmo (ingest sP f 0).1 (toEvs mid)
                (ingest_keysGt sP f 0
                  (by rw [hsP]
                      exact legacyLoop_keysGt tmo initL (toEvs pre) keysGt_initL))
            have hsome : (lookupBuf sA.buffer f2.seq).isSome := by
              rcases hH with hlt | hs
              · omega
              · rw [hseq]
                exact hs
            have hne : ¬ f2.seq = sA.expected := by
              rcases Option.isSome_iff_exists.mp hsome with ⟨v, hv⟩
              have := hkeys f2.seq v hv
              omega
            have hstep := ingest_dup sA f2 0 hst2 hne hsome
            have hstate : (ingest sA f2 0).1 = sA := by
              rw [hstep]
              cases hf2 : f2.fin with
              | false => rfl
              | true =>
                simp only [if_pos rfl]
                have hffin : f.fin = true := by rw [← hfin, hf2]
                rcases hcond with hc | hc
                · rw [hffin] at hc
                  exact absurd hc (by simp)
                · -- final bookkeeping is already (true, f.seq, 0)
                  have hini : (ingest sP f 0).1.final_seen = true ∧
                      (ingest sP f 0).1.final_seq = f.seq ∧
                      (ingest sP f 0).1.final_at = 0 :=
                    ingest_final_of_fin sP f 0 hstf hffin
                  have hfix := legacyLoop_finFixed tmo (ingest sP f 0).1
                    (toEvs mid) f.seq hini.1 hini.2.1 hini.2.2
                    (by
                      intro g t hm
                      obtain ⟨hg, ht⟩ := mem_toEvs g t mid hm
                      refine ⟨fun hgf => hc g ?_ hgf, ht⟩
                      exact List.mem_append.mpr
                        (Or.inr (List.mem_cons_of_mem _ hg)))
                  rw [← hsA] at hfix
                  rw [hseq]
                  exact lstate_eta_final sA f.seq 0 hfix.1 hfix.2.1 hfix.2.2
            have hout : (ingest sA f2 0).2 = [] := by rw [hstep]
            have hnc : completeL (ingest sA f2 0).1 = false := by
              rw [hstate, hsA]
              exact legacyLoop_not_complete tmo (ingest sP f 0).1 (toEvs mid)
                h2c (by simpa using hbr)
            rw [legacyLoop_frame_go tmo sA f2 0 (toEvs post) hst2 hnc,
              hstate, hout]
            simp

/-- Witness for C7 at a duplicated non-final frame with a mutated payload. -/
theorem C7_dedup_witness :
    ((⟨1, false, [6]⟩ : Frame).seq = (⟨1, false, [5]⟩ : Frame).seq ∧
      (⟨1, false, [6]⟩ : Frame).fin = (⟨1, false, [5]⟩ : Frame).fin ∧
      (⟨1, false, [5]⟩ : Frame).fin = false) ∧
    legacyBytes 10 (toEvs ([] ++ ⟨1, false, [5]⟩ :: ([] ++ ⟨1, false, [6]⟩ :: []))) =
      legacyBytes 10 (toEvs ([] ++ ⟨1, false, [5]⟩ :: ([] ++ []))) :=
  ⟨⟨rfl, rfl, rfl⟩,
    C7_dedup 10 [] [] [] ⟨1, false, [5]⟩ ⟨1, false, [6]⟩ rfl rfl (Or.inl rfl)⟩

/-! ## Claim C1 — the order property -/

/-- `p a ++ p (a+1) ++ ... ++ p (a+n-1)`. -/
def concatRange (p : Nat → List Nat) (a n : Nat) : List Nat :=
  ((List.range' a n).map p).flatten

theorem concatRange_zero (p : Nat → List Nat) (a : Nat) :
    concatRange p a 0 = [] := rfl

theorem concatRange_succ (p : Nat → List Nat) (a n : Nat) :
    concatRange p a (n + 1) = p a ++ concatRange p (a + 1) n := by
  simp [concatRange, List.range'_succ]

theorem concatRange_append (p : Nat → List Nat) (a b c : Nat)
    (hab : a ≤ b) (hbc : b ≤ c) :
    concatRange p a (b - a) ++ concatRange p b (c - b) = concatRange p a (c - a) := by
  have h1 : a + (b - a) = b := by omega
  have h2 : c - b + (b - a) = c - a := by omega
  simp only [concatRange]
  rw [← List.flatten_append, ← List.map_append,
    show List.range' b (c - b) = List.range' (a + (b - a)) (c - b) by rw [h1],
    List.range'_append_1, h2]

/-- The well-formedness of a delivery for the order property: payloads are a
function of the sequence number, sequence numbers lie in `{1..N}`, and the
final flag marks exactly sequence `N`. -/
def frameOK (p : Nat → List Nat) (N : Nat) (f : Frame) : Prop :=
  1 ≤ f.seq ∧ f.seq ≤ N ∧ f.payload = p f.seq ∧ (f.fin = true ↔ f.seq = N)

/-- The reassembly invariant tying a stream state to the set `S` of sequence
numbers processed so far (as a list): everything below `expected` has been
seen, `expected` itself has not, the buffer holds exactly the seen sequence
numbers above `expected` with their payloads, and the final bookkeeping
mirrors whether `N` has been seen. -/
structure ReasmInv (p : Nat → List Nat) (N : Nat) (S : List Nat)
    (st : LState) : Prop where
  lower : ∀ k, 1 ≤ k → k < st.expected → k ∈ S
  notSeen : st.expected ∉ S
  pos : 1 ≤ st.expected
  bufSome : ∀ k, k ∈ S → st.expected < k → lookupBuf st.buffer k = some (p k)
  bufNone : ∀ k v, lookupBuf st.buffer k = some v →
    k ∈ S ∧ st.expected < k ∧ v = p k
  seenLe : ∀ k ∈ S, 1 ≤ k ∧ k ≤ N
  finSeen : st.final_seen = true ↔ N ∈ S
  finVal : st.final_seen = true → st.final_seq = N

theorem drainFuel_spec (p : Nat → List Nat) (S : List Nat) (n : Nat) (st : LState)
    (hn : st.buffer.length ≤ n)
    (hsome : ∀ k, k ∈ S → st.expected ≤ k → lookupBuf st.buffer k = some (p k))
    (hnone : ∀ k v, lookupBuf st.buffer k = some v →
      k ∈ S ∧ st.expected ≤ k ∧ v = p k) :
    st.expected ≤ (drainFuel n st).1.expected ∧
    (drainFuel n st).1.expected ∉ S ∧
    (∀ k, st.expected ≤ k → k < (drainFuel n st).1.expected → k ∈ S) ∧
    (∀ k, k ∈ S → (drainFuel n st).1.expected ≤ k →
      lookupBuf (drainFuel n st).1.buffer k = some (p k)) ∧
    (∀ k v, lookupBuf (drainFuel n st).1.buffer k = some v →
      k ∈ S ∧ (drainFuel n st).1.expected ≤ k ∧ v = p k) ∧
    (drainFuel n st).2 =
      concatRange p st.expected ((drainFuel n st).1.expected - st.expected) := by
  induction n generalizing st with
  | zero =>
    have hb : st.buffer = [] := List.length_eq_zero.mp (Nat.le_zero.mp hn)
    refine ⟨le_refl _, ?_, ?_, ?_, ?_, ?_⟩
    · intro hmem
      have := hsome st.expected hmem (le_refl _)
      rw [hb] at this
      simp [lookupBuf] at this
    · intro k h1 h2
      simp only [drainFuel] at h2
      omega
    · intro k hk hle
      have := hsome k hk (le_trans (le_refl _) hle)
      rw [hb] at this
      simp [lookupBuf] at this
    · intro k v hk
      simp only [drainFuel] at hk
      rw [hb] at hk
      simp [lookupBuf] at hk
    · simp [drainFuel, concatRange_zero]
  | succ n ih =>
    simp only [drainFuel]
    cases hl : lookupBuf st.buffer st.expected with
    | none =>
      refine ⟨le_refl _, ?_, ?_, ?_, ?_, ?_⟩
      · intro hmem
        have := hsome st.expected hmem (le_refl _)
        rw [this] at hl
        exact Option.noConfusion hl
      · intro k h1 h2
        simp only at h2
        omega
      · intro k hk hle
        exact hsome k hk hle
      · intro k v hk
        exact hnone k v hk
      · simp [concatRange_zero]
    | some v =>
      dsimp only
      obtain ⟨hvS, -, hv⟩ := hnone st.expected v hl
      set st1 : LState := { st with buffer := eraseBuf st.buffer st.expected,
                                    expected := st.expected + 1 } with hst1
      have hlen : st1.buffer.length ≤ n := by
        have := eraseBuf_length_lt st.buffer st.expected v hl
        simp only [hst1]
        omega
      have hsome1 : ∀ k, k ∈ S → st1.expected ≤ k →
          lookupBuf st1.buffer k = some (p k) := by
        intro k hk hle
        simp only [hst1] at hle ⊢
        rw [lookupBuf_eraseBuf, if_neg (by omega)]
        exact hsome k hk (by omega)
      have hnone1 : ∀ k w, lookupBuf st1.buffer k = some w →
          k ∈ S ∧ st1.expected ≤ k ∧ w = p k := by
        intro k w hk
        simp only [hst1] at hk ⊢
        rw [lookupBuf_eraseBuf] at hk
        by_cases hke : k = st.expected
        · rw [if_pos hke] at hk
          exact Option.noConfusion hk
        · rw [if_neg hke] at hk
          obtain ⟨h1, h2, h3⟩ := hnone k w hk
          exact ⟨h1, by omega, h3⟩
      obtain ⟨g1, g2, g3, g4, g5, g6⟩ := ih st1 hlen hsome1 hnone1
      have hexp1 : st1.expected = st.expected + 1 := rfl
      refine ⟨by omega, g2, ?_, g4, g5, ?_⟩
      · intro k hk1 hk2
        by_cases hke : k = st.expected
        · rw [hke]
          exact hvS
        · exact g3 k (by omega) hk2
      · rw [g6, hv, hexp1]
        have hle1 : st.expected ≤ st.expected + 1 := by omega
        have hle2 : st.expected + 1 ≤ (drainFuel n st1).1.expected := by omega
        calc p st.expected ++
              concatRange p (st.expected + 1)
                ((drainFuel n st1).1.expected - (st.expected + 1))
            = concatRange p st.expected
                ((st.expected + 1) - st.expected) ++
              concatRange p (st.expected + 1)
                ((drainFuel n st1).1.expected - (st.expected + 1)) := by
              congr 1
              rw [show st.expected + 1 - st.expected = 1 by omega,
                concatRange_succ, concatRange_zero, List.append_nil]
          _ = concatRange p st.expected
                ((drainFuel n st1).1.expected - st.expected) :=
              concatRange_append p st.expected (st.expected + 1)
                (drainFuel n st1).1.expected hle1 hle2

theorem ingest_shape_eq (st : LState) (f : Frame) (t : Nat)
    (h1 : ¬ f.seq < st.expected) (h2 : f.seq = st.expected) :
    ingest st f t =
      ((if f.fin then
          { (drain { st with expected := st.expected + 1 }).1 with
              final_seen := true, final_seq := f.seq, final_at := t }
        else (drain { st with expected := st.expected + 1 }).1),
        f.payload ++ (drain { st with expected := st.expected + 1 }).2) := by
  unfold ingest
  rw [if_neg h1, if_pos h2]
  cases f.fin <;> simp

theorem ingest_shape_ins (st : LState) (f : Frame) (t : Nat)
    (h1 : ¬ f.seq < st.expected) (h2 : ¬ f.seq = st.expected)
    (h3 : ¬ (lookupBuf st.buffer f.seq).isSome) :
    ingest st f t =
      ((if f.fin then
          { st with
              buffer := (f.seq, f.payload) :: st.buffer,
              final_seen := true, final_seq := f.seq, final_at := t }
        else { st with buffer := (f.seq, f.payload) :: st.buffer }), []) := by
  unfold ingest
  rw [if_neg h1, if_neg h2, if_neg h3]
  cases f.fin <;> simp

theorem ingest_inv (p : Nat → List Nat) (N : Nat) (S : List Nat) (st : LState)
    (f : Frame) (t : Nat) (hf : frameOK p N f) (hInv : ReasmInv p N S st) :
    ReasmInv p N (f.seq :: S) (ingest st f t).1 ∧
    (ingest st f t).2 =
      concatRange p st.expected ((ingest st f t).1.expected - st.expected) ∧
    st.expected ≤ (ingest st f t).1.expected := by
  obtain ⟨hf1, hf2, hf3, hf4⟩ := hf
  have hNnotf : f.fin = false → ¬ N = f.seq := by
    intro hff hN
    have := hf4.mpr hN.symm
    rw [hff] at this
    exact Bool.noConfusion this
  by_cases h1 : f.seq < st.expected
  · -- stale duplicate: already seen
    have hmem : f.seq ∈ S := hInv.lower f.seq hf1 h1
    have hiff : ∀ k, k ∈ f.seq :: S ↔ k ∈ S := by
      intro k
      rw [List.mem_cons]
      exact ⟨fun h => h.elim (fun e => e ▸ hmem) id, Or.inr⟩
    rw [ingest_stale st f t h1]
    refine ⟨⟨?_, ?_, hInv.pos, ?_, ?_, ?_, ?_, hInv.finVal⟩, by simp [concatRange_zero], le_refl _⟩
    · intro k hk1 hk2
      exact (hiff k).mpr (hInv.lower k hk1 hk2)
    · rw [hiff]
      exact hInv.notSeen
    · intro k hk hlt
      exact hInv.bufSome k ((hiff k).mp hk) hlt
    · intro k v hk
      obtain ⟨a, b, c⟩ := hInv.bufNone k v hk
      exact ⟨(hiff k).mpr a, b, c⟩
    · intro k hk
      rcases List.mem_cons.mp hk with he | hm
      · exact he ▸ ⟨hf1, hf2⟩
      · exact hInv.seenLe k hm
    · rw [hiff]
      exact hInv.finSeen
  · by_cases h2 : f.seq = st.expected
    · -- in-order frame: emit and drain
      rw [ingest_shape_eq st f t h1 h2]
      have hsome1 : ∀ k, k ∈ f.seq :: S →
          ({ st with expected := st.expected + 1 } : LState).expected ≤ k →
          lookupBuf ({ st with expected := st.expected + 1 } : LState).buffer k =
            some (p k) := by
        intro k hk hle
        simp only at hle ⊢
        rcases List.mem_cons.mp hk with he | hm
        · omega
        · exact hInv.bufSome k hm (by omega)
      have hnone1 : ∀ k v,
          lookupBuf ({ st with expected := st.expected + 1 } : LState).buffer k =
            some v →
          k ∈ f.seq :: S ∧
            ({ st with expected := st.expected + 1 } : LState).expected ≤ k ∧
            v = p k := by
        intro k v hk
        simp only at hk ⊢
        obtain ⟨a, b, c⟩ := hInv.bufNone k v hk
        exact ⟨List.mem_cons_of_mem _ a, by omega, c⟩
      obtain ⟨g1, g2, g3, g4, g5, g6⟩ := drainFuel_spec p (f.seq :: S)
        ({ st with expected := st.expected + 1 } : LState).buffer.length
        { st with expected := st.expected + 1 } (le_refl _) hsome1 hnone1
      simp only at g1 g2 g3 g4 g5 g6
      set d := drain { st with expected := st.expected + 1 } with hd
      have hdd : d = drainFuel st.buffer.length { st with expected := st.expected + 1 } := rfl
      rw [← hdd] at g1 g2 g3 g4 g5 g6
      have hmemself : f.seq ∈ f.seq :: S := List.mem_cons_self _ _
      have hcore : (∀ k, 1 ≤ k → k < d.1.expected → k ∈ f.seq :: S) ∧
          d.1.expected ∉ f.seq :: S ∧ 1 ≤ d.1.expected ∧
          (∀ k, k ∈ f.seq :: S → d.1.expected < k →
            lookupBuf d.1.buffer k = some (p k)) ∧
          (∀ k v, lookupBuf d.1.buffer k = some v →
            k ∈ f.seq :: S ∧ d.1.expected < k ∧ v = p k) ∧
          (∀ k, k ∈ f.seq :: S → 1 ≤ k ∧ k ≤ N) := by
        refine ⟨?_, g2, by omega, ?_, ?_, ?_⟩
        · intro k hk1 hk2
          rcases Nat.lt_or_ge k st.expected with hlt | hge
          · exact List.mem_cons_of_mem _ (hInv.lower k hk1 hlt)
          · rcases Nat.eq_or_lt_of_le hge with he | hlt2
            · rw [← he, ← h2]
              exact hmemself
            · exact g3 k (by omega) hk2
        · intro k hk hlt
          exact g4 k hk (le_of_lt hlt)
        · intro k v hk
          obtain ⟨a, b, c⟩ := g5 k v hk
          refine ⟨a, ?_, c⟩
          rcases Nat.eq_or_lt_of_le b with he | hlt
          · exact absurd (he ▸ a) g2
          · exact hlt
        · intro k hk
          rcases List.mem_cons.mp hk with he | hm
          · exact he ▸ ⟨hf1, hf2⟩
          · exact hInv.seenLe k hm
      have hfinal := drainFuel_final st.buffer.length
        { st with expected := st.expected + 1 }
      rw [← hdd] at hfinal
      simp only at hfinal
      have hout : f.payload ++ d.2 =
          concatRange p st.expected (d.1.expected - st.expected) := by
        rw [g6, hf3, h2,
          show d.1.expected - st.expected = (d.1.expected - (st.expected + 1)) + 1 by
            omega,
          concatRange_succ]
      cases hfin : f.fin with
      | true =>
        have hNf : f.seq = N := hf4.mp hfin
        refine ⟨⟨hcore.1, hcore.2.1, hcore.2.2.1, hcore.2.2.2.1,
          hcore.2.2.2.2.1, hcore.2.2.2.2.2, ?_, ?_⟩, ?_, ?_⟩
        · simp only [if_pos rfl]
          exact ⟨fun _ => hNf ▸ hmemself, fun _ => rfl⟩
        · intro
          simp [hNf]
        · simpa using hout
        · have hm2 : st.expected ≤ d.1.expected := by omega
          simpa using hm2
      | false =>
        refine ⟨⟨hcore.1, hcore.2.1, hcore.2.2.1, hcore.2.2.2.1,
          hcore.2.2.2.2.1, hcore.2.2.2.2.2, ?_, ?_⟩, ?_, ?_⟩
        · simp only [Bool.false_eq_true, if_false]
          rw [hfinal.1, List.mem_cons]
          constructor
          · intro h
            exact Or.inr (hInv.finSeen.mp h)
          · intro h
            rcases h with he | hm
            · exact absurd he (hNnotf hfin)
            · exact hInv.finSeen.mpr hm
        · simp only [Bool.false_eq_true, if_false]
          rw [hfinal.1, hfinal.2.1]
          exact hInv.finVal
        · simpa using hout
        · have hm2 : st.expected ≤ d.1.expected := by omega
          simpa using hm2
    · by_cases h3 : (lookupBuf st.buffer f.seq).isSome
      · -- out-of-order duplicate: first-writer-wins, only the final flag acts
        rw [ingest_dup st f t h1 h2 h3]
        obtain ⟨v, hv⟩ := Option.isSome_iff_exists.mp h3
        have hmem : f.seq ∈ S := (hInv.bufNone f.seq v hv).1
        have hiff : ∀ k, k ∈ f.seq :: S ↔ k ∈ S := by
          intro k
          rw [List.mem_cons]
          exact ⟨fun h => h.elim (fun e => e ▸ hmem) id, Or.inr⟩
        have hseenLe : ∀ k, k ∈ f.seq :: S → 1 ≤ k ∧ k ≤ N := by
          intro k hk
          exact hInv.seenLe k ((hiff k).mp hk)
        cases hfin : f.fin with
        | true =>
          have hNf : f.seq = N := hf4.mp hfin
          refine ⟨⟨?_, ?_, hInv.pos, ?_, ?_, hseenLe, ?_, ?_⟩,
            by simp [concatRange_zero], le_refl _⟩
          · intro k hk1 hk2
            exact (hiff k).mpr (hInv.lower k hk1 hk2)
          · rw [hiff]
            exact hInv.notSeen
          · intro k hk hlt
            exact hInv.bufSome k ((hiff k).mp hk) hlt
          · intro k v2 hk
            obtain ⟨a, b, c⟩ := hInv.bufNone k v2 hk
            exact ⟨(hiff k).mpr a, b, c⟩
          · simp only [if_pos rfl]
            exact ⟨fun _ => hNf ▸ List.mem_cons_self _ _, fun _ => rfl⟩
          · intro
            simp [hNf]
        | false =>
          refine ⟨⟨?_, ?_, hInv.pos, ?_, ?_, hseenLe, ?_, ?_⟩,
            by simp [concatRange_zero], le_refl _⟩
          · intro k hk1 hk2
            exact (hiff k).mpr (hInv.lower k hk1 hk2)
          · rw [hiff]
            exact hInv.notSeen
          · intro k hk hlt
            exact hInv.bufSome k ((hiff k).mp hk) hlt
          · intro k v2 hk
            obtain ⟨a, b, c⟩ := hInv.bufNone k v2 hk
            exact ⟨(hiff k).mpr a, b, c⟩
          · simp only [Bool.false_eq_true, if_false]
            rw [hiff]
            exact hInv.finSeen
          · simp only [Bool.false_eq_true, if_false]
            exact hInv.finVal
      · -- out-of-order first copy: buffer it
        rw [ingest_shape_ins st f t h1 h2 h3]
        have hnotS : f.seq ∉ S := by
          intro hmem
          exact h3 (by rw [hInv.bufSome f.seq hmem (by omega)]; rfl)
        have hlower : ∀ k, 1 ≤ k → k < st.expected → k ∈ f.seq :: S :=
          fun k hk1 hk2 => List.mem_cons_of_mem _ (hInv.lower k hk1 hk2)
        have hnot : st.expected ∉ f.seq :: S := by
          rw [List.mem_cons]
          rintro (he | hm)
          · exact h2 he.symm
          · exact hInv.notSeen hm
        have hbufSome : ∀ k, k ∈ f.seq :: S → st.expected < k →
            lookupBuf ((f.seq, f.payload) :: st.buffer) k = some (p k) := by
          intro k hk hlt
          rcases List.mem_cons.mp hk with he | hm
          · subst he
            simp [lookupBuf, hf3]
          · have hne : ¬ f.seq = k := fun he2 => hnotS (he2 ▸ hm)
            simp only [lookupBuf, if_neg hne]
            exact hInv.bufSome k hm hlt
        have hbufNone : ∀ k v, lookupBuf ((f.seq, f.payload) :: st.buffer) k = some v →
            k ∈ f.seq :: S ∧ st.expected < k ∧ v = p k := by
          intro k v hk
          simp only [lookupBuf] at hk
          by_cases hke : f.seq = k
          · rw [if_pos hke] at hk
            refine ⟨hke ▸ List.mem_cons_self _ _, by omega, ?_⟩
            rw [← Option.some_inj.mp hk, hf3, hke]
          · rw [if_neg hke] at hk
            obtain ⟨a, b, c⟩ := hInv.bufNone k v hk
            exact ⟨List.mem_cons_of_mem _ a, b, c⟩
        have hseenLe : ∀ k, k ∈ f.seq :: S → 1 ≤ k ∧ k ≤ N := by
          intro k hk
          rcases List.mem_cons.mp hk with he | hm
          · exact he ▸ ⟨hf1, hf2⟩
          · exact hInv.seenLe k hm
        cases hfin : f.fin with
        | true =>
          have hNf : f.seq = N := hf4.mp hfin
          refine ⟨⟨hlower, hnot, hInv.pos, hbufSome, hbufNone, hseenLe, ?_, ?_⟩,
            by simp [concatRange_zero], le_refl _⟩
          · simp only [if_pos rfl]
            exact ⟨fun _ => hNf ▸ List.mem_cons_self _ _, fun _ => rfl⟩
          · intro
            simp [hNf]
        | false =>
          refine ⟨⟨hlower, hnot, hInv.pos, hbufSome, hbufNone, hseenLe, ?_, ?_⟩,
            by simp [concatRange_zero], le_refl _⟩
          · simp only [Bool.false_eq_true, if_false]
            rw [List.mem_cons]
            constructor
            · intro h
              exact Or.inr (hInv.finSeen.mp h)
            · rintro (he | hm)
              · exact absurd he (hNnotf hfin)
              · exact hInv.finSeen.mpr hm
          · simp only [Bool.false_eq_true, if_false]
            exact hInv.finVal

theorem legacyLoop_inv (p : Nat → List Nat) (N tmo : Nat) (fs : List Frame)
    (S : List Nat) (st : LState)
    (hok : ∀ f ∈ fs, frameOK p N f) (hInv : ReasmInv p N S st) :
    ∃ S2 : List Nat,
      ReasmInv p N S2 (legacyLoop tmo st (toEvs fs)).state ∧
      (∀ k, k ∈ S → k ∈ S2) ∧
      (legacyLoop tmo st (toEvs fs)).out =
        concatRange p st.expected
          ((legacyLoop tmo st (toEvs fs)).state.expected - st.expected) ∧
      st.expected ≤ (legacyLoop tmo st (toEvs fs)).state.expected ∧
      ((legacyLoop tmo st (toEvs fs)).broke = true →
        completeL (legacyLoop tmo st (toEvs fs)).state = true) ∧
      ((legacyLoop tmo st (toEvs fs)).broke = false → ∀ f ∈ fs, f.seq ∈ S2) := by
  induction fs generalizing S st with
  | nil =>
    refine ⟨S, ?_, fun k h => h, ?_, le_refl _, ?_, ?_⟩
    · simpa [toEvs, legacyLoop_nil] using hInv
    · simp [toEvs, legacyLoop_nil, concatRange_zero]
    · simp [toEvs, legacyLoop_nil]
    · simp
  | cons f fs ih =>
    have hokf : frameOK p N f := hok f (List.mem_cons_self _ _)
    have hokR : ∀ g ∈ fs, frameOK p N g :=
      fun g hg => hok g (List.mem_cons_of_mem _ hg)
    rw [toEvs_cons]
    by_cases h1 : f.seq < st.expected
    · rw [legacyLoop_frame_stale tmo st f 0 (toEvs fs) h1]
      obtain ⟨S2, a, b, c, d, e, g⟩ := ih S st hokR hInv
      have hfseq : f.seq ∈ S := hInv.lower f.seq hokf.1 h1
      refine ⟨S2, a, b, c, d, e, ?_⟩
      intro hb g2 hg2
      rcases List.mem_cons.mp hg2 with he | hm
      · exact he ▸ b f.seq hfseq
      · exact g hb g2 hm
    · obtain ⟨hInv1, hout1, hmono1⟩ := ingest_inv p N S st f 0 hokf hInv
      cases h2 : completeL (ingest st f 0).1 with
      | true =>
        rw [legacyLoop_frame_break tmo st f 0 (toEvs fs) h1 h2]
        refine ⟨f.seq :: S, hInv1, fun k h => List.mem_cons_of_mem _ h,
          hout1, hmono1, fun _ => h2, ?_⟩
        intro hcontra
        exact absurd hcontra (by simp)
      | false =>
        rw [legacyLoop_frame_go tmo st f 0 (toEvs fs) h1 h2]
        obtain ⟨S2, a, b, c, d, e, g⟩ := ih (f.seq :: S) (ingest st f 0).1 hokR hInv1
        refine ⟨S2, a, ?_, ?_, by simp only; omega, e, ?_⟩
        · intro k hk
          exact b k (List.mem_cons_of_mem _ hk)
        · simp only
          rw [hout1, c]
          exact concatRange_append p st.expected (ingest st f 0).1.expected
            (legacyLoop tmo (ingest st f 0).1 (toEvs fs)).state.expected hmono1 d
        · intro hb g2 hg2
          rcases List.mem_cons.mp hg2 with he | hm
          · exact he ▸ b f.seq (List.mem_cons_self _ _)
          · exact g hb g2 hm

theorem order_property_general (tmo N : Nat) (p : Nat → List Nat) (fs : List Frame)
    (hok : ∀ f ∈ fs, frameOK p N f)
    (hcover : ∀ k ∈ List.range' 1 N, ∃ f ∈ fs, f.seq = k) :
    legacyBytes tmo (toEvs fs) = concatRange p 1 N := by
  have hInv0 : ReasmInv p N [] initL := by
    refine ⟨?_, ?_, le_refl _, ?_, ?_, ?_, ?_, ?_⟩
    · intro k hk1 hk2
      simp [initL] at hk2
      omega
    · simp
    · intro k hk
      simp at hk
    · intro k v hk
      simp [initL, lookupBuf] at hk
    · intro k hk
      simp at hk
    · simp [initL]
    · intro h
      simp [initL] at h
  obtain ⟨S2, hInv2, hsub, hout, hmono, hbrk, hcov⟩ :=
    legacyLoop_inv p N tmo fs [] initL hok hInv0
  have hexpLe : (legacyLoop tmo initL (toEvs fs)).state.expected ≤ N + 1 := by
    by_contra hgt
    push_neg at hgt
    have hmem : N + 1 ∈ S2 := hInv2.lower (N + 1) (by omega) (by omega)
    have := (hInv2.seenLe (N + 1) hmem).2
    omega
  have hexp : (legacyLoop tmo initL (toEvs fs)).state.expected = N + 1 := by
    cases hb : (legacyLoop tmo initL (toEvs fs)).broke with
    | true =>
      have hc := hbrk hb
      simp only [completeL, Bool.and_eq_true, decide_eq_true_eq] at hc
      have hN := hInv2.finVal hc.1
      omega
    | false =>
      by_contra hne
      have hlt : (legacyLoop tmo initL (toEvs fs)).state.expected ≤ N := by
        omega
      have hpos := hInv2.pos
      have hmem : (legacyLoop tmo initL (toEvs fs)).state.expected ∈
          List.range' 1 N := by
        rw [List.mem_range'_1]
        omega
      obtain ⟨f, hf, hfe⟩ := hcover _ hmem
      have := hcov hb f hf
      rw [hfe] at this
      exact hInv2.notSeen this
  have hkeys : keysGtB (legacyLoop tmo initL (toEvs fs)).state.buffer
      (legacyLoop tmo initL (toEvs fs)).state.expected := by
    intro k v hk
    exact (hInv2.bufNone k v hk).2.1
  rw [legacyBytes_eq, drain_eq_of_keysGt _ hkeys, hout, hexp]
  simp [initL]

/-- C1: for any permutation with any multiplicities of the frames `{1..N}`
(payloads a function `p` of the sequence number, frame `N` and only frame `N`
marked final, every sequence `1..N` delivered at least once), the bytes the
legacy receiver writes to its sink are exactly `p 1 ++ p 2 ++ ... ++ p N`. -/
theorem C1_order_property (tmo N : Nat) (p : Nat → List Nat) (fs : List Frame)
    (hok : ∀ f ∈ fs, frameOK p N f)
    (hcover : ∀ k ∈ List.range' 1 N, ∃ f ∈ fs, f.seq = k) :
    legacyBytes tmo (toEvs fs) = concatRange p 1 N :=
  order_property_general tmo N p fs hok hcover

/-- Witness for C1: `N = 2`, payloads `p k = [k]`, delivered out of order and
with a duplicated final frame. -/
theorem C1_order_property_witness :
    ((∀ f ∈ ([⟨2, true, [2]⟩, ⟨1, false, [1]⟩, ⟨2, true, [2]⟩] : List Frame),
        frameOK (fun k => [k]) 2 f) ∧
      (∀ k ∈ List.range' 1 2,
        ∃ f ∈ ([⟨2, true, [2]⟩, ⟨1, false, [1]⟩, ⟨2, true, [2]⟩] : List Frame),
          f.seq = k)) ∧
    legacyBytes 10 (toEvs [⟨2, true, [2]⟩, ⟨1, false, [1]⟩, ⟨2, true, [2]⟩]) =
      concatRange (fun k => [k]) 1 2 :=
  ⟨⟨by unfold frameOK; decide, by decide⟩,
    C1_order_property 10 2 (fun k => [k])
      [⟨2, true, [2]⟩, ⟨1, false, [1]⟩, ⟨2, true, [2]⟩]
      (by unfold frameOK; decide) (by decide)⟩

/-! ## Claim C4 — chunking round-trip at an exact multiple of the chunk size -/

theorem chunkV2Fuel_step (n : Nat) (src : List Nat) (seq : Nat)
    (hne : src.isEmpty = false) (hge : PAYLOAD_SIZE ≤ src.length) :
    chunkV2Fuel (n + 1) src seq =
      ((⟨seq, false, src.take PAYLOAD_SIZE⟩ : Frame) ::
          (chunkV2Fuel n (src.drop PAYLOAD_SIZE) (seq + 1)).1,
        (chunkV2Fuel n (src.drop PAYLOAD_SIZE) (seq + 1)).2) := by
  have hlt : ¬ src.length < PAYLOAD_SIZE := by omega
  simp [chunkV2Fuel, hne, hlt]

theorem chunkV2Fuel_exhaust (n : Nat) (seq : Nat) :
    chunkV2Fuel (n + 1) [] seq = ([], seq) := by
  simp [chunkV2Fuel]

theorem legacy_run_inorder3 (c1 c2 c3 : List Nat) :
    legacyBytes 10 (toEvs [⟨1, false, c1⟩, ⟨2, false, c2⟩, ⟨3, false, c3⟩,
      ⟨4, true, []⟩, ⟨4, true, []⟩, ⟨4, true, []⟩]) = c1 ++ (c2 ++ c3) := by
  have hrun := order_property_general 10 4
    (fun k => if k = 1 then c1 else if k = 2 then c2 else if k = 3 then c3 else [])
    [⟨1, false, c1⟩, ⟨2, false, c2⟩, ⟨3, false, c3⟩,
      ⟨4, true, []⟩, ⟨4, true, []⟩, ⟨4, true, []⟩]
    (by
      intro f hf
      unfold frameOK
      fin_cases hf <;> exact ⟨by norm_num, by norm_num, by norm_num, by simp⟩)
    (by
      intro k hk
      simp only [List.range'] at hk
      fin_cases hk
      · exact ⟨⟨1, false, c1⟩, by simp, rfl⟩
      · exact ⟨⟨2, false, c2⟩, by simp, rfl⟩
      · exact ⟨⟨3, false, c3⟩, by simp, rfl⟩
      · exact ⟨⟨4, true, []⟩, by simp, rfl⟩)
  rw [hrun]
  simp [concatRange, List.range']

/-- C4: a source of exactly `3 * 1200` bytes is sent by `part_001` as three
full non-final frames with sequences 1, 2, 3, followed only by the empty
final markers at sequence 4 (three retransmissions, 200 ms apart); a receiver
ingesting that frame sequence with no loss writes back exactly the source. -/
theorem C4_chunk_roundtrip (src : List Nat) (h : src.length = 3600) :
    (sendAllV2 src).1 =
      [⟨1, false, src.take 1200⟩, ⟨2, false, (src.drop 1200).take 1200⟩,
        ⟨3, false, ((src.drop 1200).drop 1200).take 1200⟩] ∧
    (sendAllV2 src).2 = List.replicate 3 (⟨4, true, []⟩, 200) ∧
    (src.take 1200).length = 1200 ∧
    ((src.drop 1200).take 1200).length = 1200 ∧
    (((src.drop 1200).drop 1200).take 1200).length = 1200 ∧
    legacyBytes 10
      (toEvs ((sendAllV2 src).1 ++ ((sendAllV2 src).2.map Prod.fst))) = src := by
  have hne1 : src.isEmpty = false := by
    cases src with
    | nil => simp at h
    | cons a l => rfl
  have hlen2 : (src.drop 1200).length = 2400 := by
    simp [List.length_drop, h]
  have hne2 : (src.drop 1200).isEmpty = false := by
    cases hc : src.drop 1200 with
    | nil => rw [hc] at hlen2; simp at hlen2
    | cons a l => rfl
  have hlen3 : ((src.drop 1200).drop 1200).length = 1200 := by
    simp [List.length_drop, h]
  have hne3 : ((src.drop 1200).drop 1200).isEmpty = false := by
    cases hc : (src.drop 1200).drop 1200 with
    | nil => rw [hc] at hlen3; simp at hlen3
    | cons a l => rfl
  have hnil4 : ((src.drop 1200).drop 1200).drop 1200 = [] := by
    apply List.length_eq_zero.mp
    simp [List.length_drop, h]
  have hframes : chunkLoopV2 src 1 =
      ([⟨1, false, src.take 1200⟩, ⟨2, false, (src.drop 1200).take 1200⟩,
        ⟨3, false, ((src.drop 1200).drop 1200).take 1200⟩], 4) := by
    unfold chunkLoopV2
    rw [h]
    rw [chunkV2Fuel_step 3600 src 1 hne1 (by simp only [PAYLOAD_SIZE]; omega)]
    rw [show (3600 : Nat) = 3599 + 1 by norm_num,
      chunkV2Fuel_step 3599 (src.drop PAYLOAD_SIZE) 2
        (by simpa only [PAYLOAD_SIZE] using hne2)
        (by simp only [PAYLOAD_SIZE, List.length_drop]; omega)]
    rw [show (3599 : Nat) = 3598 + 1 by norm_num,
      chunkV2Fuel_step 3598 ((src.drop PAYLOAD_SIZE).drop PAYLOAD_SIZE) 3
        (by simpa only [PAYLOAD_SIZE] using hne3)
        (by simp only [PAYLOAD_SIZE, List.length_drop]; omega)]
    rw [show (3598 : Nat) = 3597 + 1 by norm_num,
      show ((src.drop PAYLOAD_SIZE).drop PAYLOAD_SIZE).drop PAYLOAD_SIZE =
        ([] : List Nat) by simpa only [PAYLOAD_SIZE] using hnil4,
      chunkV2Fuel_exhaust 3597 4]
    simp [PAYLOAD_SIZE]
  have hA : (sendAllV2 src).1 =
      [⟨1, false, src.take 1200⟩, ⟨2, false, (src.drop 1200).take 1200⟩,
        ⟨3, false, ((src.drop 1200).drop 1200).take 1200⟩] := by
    unfold sendAllV2
    rw [hframes]
  have hB : (sendAllV2 src).2 = List.replicate 3 (⟨4, true, []⟩, 200) := by
    unfold sendAllV2
    rw [hframes]
    rfl
  refine ⟨hA, hB, by simp [List.length_take, List.length_drop, h],
    by simp [List.length_take, List.length_drop, h],
    by simp [List.length_take, List.length_drop, h], ?_⟩
  rw [hA, hB]
  show legacyBytes 10 (toEvs [⟨1, false, src.take 1200⟩,
    ⟨2, false, (src.drop 1200).take 1200⟩,
    ⟨3, false, ((src.drop 1200).drop 1200).take 1200⟩,
    ⟨4, true, []⟩, ⟨4, true, []⟩, ⟨4, true, []⟩]) = src
  rw [legacy_run_inorder3]
  have hc3 : ((src.drop 1200).drop 1200).take 1200 = (src.drop 1200).drop 1200 :=
    List.take_of_length_le (by rw [hlen3])
  rw [hc3, List.take_append_drop, List.take_append_drop]

/-- Witness for C4 at a concrete 3600-byte source. -/
theorem C4_chunk_roundtrip_witness :
    (List.replicate 3600 (7 : Nat)).length = 3600 ∧
    ((sendAllV2 (List.replicate 3600 7)).1 =
      [⟨1, false, (List.replicate 3600 7).take 1200⟩,
        ⟨2, false, ((List.replicate 3600 7).drop 1200).take 1200⟩,
        ⟨3, false, (((List.replicate 3600 7).drop 1200).drop 1200).take 1200⟩] ∧
    (sendAllV2 (List.replicate 3600 7)).2 =
      List.replicate 3 (⟨4, true, []⟩, 200) ∧
    ((List.replicate 3600 7).take 1200).length = 1200 ∧
    (((List.replicate 3600 7).drop 1200).take 1200).length = 1200 ∧
    ((((List.replicate 3600 7).drop 1200).drop 1200).take 1200).length = 1200 ∧
    legacyBytes 10
      (toEvs ((sendAllV2 (List.replicate 3600 7)).1 ++
        ((sendAllV2 (List.replicate 3600 7)).2.map Prod.fst))) =
      List.replicate 3600 7) :=
  ⟨by rw [List.length_replicate], C4_chunk_roundtrip (List.replicate 3600 7)
    (by rw [List.length_replicate])⟩

/-! ## Claim C5 — final-marker retransmission (amended half) -/

theorem chunkV1Fuel_final (n : Nat) (src : List Nat) (seq : Nat)
    (hn : src.length < n) :
    ∃ pre chunk, (chunkV1Fuel n src seq).1 =
      pre ++ [⟨(chunkV1Fuel n src seq).2, true, chunk⟩] := by
  induction n generalizing src seq with
  | zero => omega
  | succ n ih =>
    by_cases hlt : src.length < PAYLOAD_SIZE
    · exact ⟨[], src.take PAYLOAD_SIZE, by simp [chunkV1Fuel, hlt]⟩
    · have hdl : (src.drop PAYLOAD_SIZE).length < n := by
        rw [List.length_drop]
        simp only [PAYLOAD_SIZE] at hlt ⊢
        omega
      obtain ⟨pre, chunk, hpc⟩ := ih (src.drop PAYLOAD_SIZE) (seq + 1) hdl
      refine ⟨⟨seq, false, src.take PAYLOAD_SIZE⟩ :: pre, chunk, ?_⟩
      simp only [chunkV1Fuel, hlt, if_false]
      rw [List.cons_append, ← hpc]

theorem chunkV2Fuel_final (n : Nat) (src : List Nat) (seq : Nat)
    (hn : src.length < n) (hne : src ≠ [])
    (hmod : src.length % PAYLOAD_SIZE ≠ 0) :
    ∃ pre chunk, (chunkV2Fuel n src seq).1 =
      pre ++ [⟨(chunkV2Fuel n src seq).2 - 1, true, chunk⟩] := by
  induction n generalizing src seq with
  | zero => omega
  | succ n ih =>
    have hae : src.isEmpty = false := by
      cases src with
      | nil => exact absurd rfl hne
      | cons a l => rfl
    by_cases hlt : src.length < PAYLOAD_SIZE
    · refine ⟨[], src.take PAYLOAD_SIZE, ?_⟩
      simp [chunkV2Fuel, hae, hlt]
    · have hdl : (src.drop PAYLOAD_SIZE).length < n := by
        rw [List.length_drop]
        simp only [PAYLOAD_SIZE] at hlt ⊢
        omega
      have hdmod : (src.drop PAYLOAD_SIZE).length % PAYLOAD_SIZE ≠ 0 := by
        rw [List.length_drop]
        simp only [PAYLOAD_SIZE] at hlt hmod ⊢
        omega
      have hdne : src.drop PAYLOAD_SIZE ≠ [] := by
        intro hc
        have hlc := congrArg List.length hc
        rw [List.length_drop] at hlc
        simp only [PAYLOAD_SIZE] at hlt hmod hlc
        simp only [List.length_nil] at hlc
        omega
      obtain ⟨pre, chunk, hpc⟩ := ih (src.drop PAYLOAD_SIZE) (seq + 1) hdl hdne hdmod
      refine ⟨⟨seq, false, src.take PAYLOAD_SIZE⟩ :: pre, chunk, ?_⟩
      simp only [chunkV2Fuel, hae, Bool.false_eq_true, if_false, hlt]
      rw [List.cons_append, ← hpc]

/-- C5 (amended): after the main send loop, both senders transmit a
final-flagged empty frame exactly 3 times with a fixed 200 ms delay between
attempts.  The legacy sender (`src/sender.cpp`) retransmits at the same
sequence number as the final marker its loop sent; the 12-byte sender
(`part_001`) increments `seq` after its in-loop final, so its retransmitted
final markers carry the in-loop final's sequence number plus one. -/
theorem C5_retransmit (src : List Nat) (h1 : src ≠ [])
    (h2 : src.length % PAYLOAD_SIZE ≠ 0) :
    (∃ pre chunk, (sendAllV1 src).1 =
      pre ++ [⟨(chunkLoopV1 src 1).2, true, chunk⟩]) ∧
    (sendAllV1 src).2 =
      List.replicate 3 (⟨(chunkLoopV1 src 1).2, true, []⟩, RETX_DELAY_MS) ∧
    (∃ pre chunk, (sendAllV2 src).1 =
      pre ++ [⟨(chunkLoopV2 src 1).2 - 1, true, chunk⟩]) ∧
    (sendAllV2 src).2 =
      List.replicate 3 (⟨(chunkLoopV2 src 1).2, true, []⟩, RETX_DELAY_MS) :=
  ⟨chunkV1Fuel_final (src.length + 1) src 1 (by omega), rfl,
    chunkV2Fuel_final (src.length + 1) src 1 (by omega) h1 h2, rfl⟩

/-- Witness for C5 at a one-byte source. -/
theorem C5_retransmit_witness :
    (([7] : List Nat) ≠ [] ∧ ([7] : List Nat).length % PAYLOAD_SIZE ≠ 0) ∧
    ((∃ pre chunk, (sendAllV1 [7]).1 =
        pre ++ [⟨(chunkLoopV1 [7] 1).2, true, chunk⟩]) ∧
      (sendAllV1 [7]).2 =
        List.replicate 3 (⟨(chunkLoopV1 [7] 1).2, true, []⟩, RETX_DELAY_MS) ∧
      (∃ pre chunk, (sendAllV2 [7]).1 =
        pre ++ [⟨(chunkLoopV2 [7] 1).2 - 1, true, chunk⟩]) ∧
      (sendAllV2 [7]).2 =
        List.replicate 3 (⟨(chunkLoopV2 [7] 1).2, true, []⟩, RETX_DELAY_MS)) :=
  ⟨⟨by decide, by decide⟩, C5_retransmit [7] (by decide) (by decide)⟩

/-! ## Claim C6 — post-loop flush (amended half) -/

/-- The per-stream loop invariant of the multi-stream receiver: every
buffered key is strictly above `expected`. -/
def mInv (e : Nat × MState) : Prop :=
  keysGtB e.2.core.buffer e.2.core.expected

theorem lookupS_pred (m : List (Nat × MState)) (sid : Nat) (st : MState)
    (hm : ∀ e ∈ m, mInv e) (h : lookupS m sid = some st) :
    mInv (sid, st) := by
  induction m with
  | nil => simp [lookupS] at h
  | cons hd tl ih =>
    obtain ⟨k, v⟩ := hd
    simp only [lookupS] at h
    by_cases hk : k = sid
    · rw [if_pos hk] at h
      have := hm (k, v) (List.mem_cons_self _ _)
      rw [Option.some_inj.mp h] at this
      exact this
    · rw [if_neg hk] at h
      exact ih (fun e he => hm e (List.mem_cons_of_mem _ he)) h

theorem updateS_pred (m : List (Nat × MState)) (sid : Nat) (st : MState)
    (hm : ∀ e ∈ m, mInv e) (hst : mInv (sid, st)) :
    ∀ e ∈ updateS m sid st, mInv e := by
  induction m with
  | nil =>
    intro e he
    simp only [updateS, List.mem_singleton] at he
    exact he ▸ hst
  | cons hd tl ih =>
    obtain ⟨k, v⟩ := hd
    intro e he
    simp only [updateS] at he
    by_cases hk : k = sid
    · rw [if_pos hk] at he
      rcases List.mem_cons.mp he with he1 | he2
      · exact he1 ▸ hst
      · exact hm e (List.mem_cons_of_mem _ he2)
    · rw [if_neg hk] at he
      rcases List.mem_cons.mp he with he1 | he2
      · exact he1 ▸ hm (k, v) (List.mem_cons_self _ _)
      · exact ih (fun e2 he3 => hm e2 (List.mem_cons_of_mem _ he3)) e he2

theorem mInv_initM : mInv (0, initM) := by
  intro k v hk
  simp [initM, initL, lookupBuf] at hk

theorem mFrame_mInv (cfg : MCfg) (streams : List (Nat × MState))
    (sid seq : Nat) (fin : Bool) (payload : List Nat) (t : Nat)
    (h : ∀ e ∈ streams, mInv e) :
    ∀ e ∈ (mFrame cfg streams sid seq fin payload t).1, mInv e := by
  unfold mFrame
  cases hsub : (!cfg.subscribeAll && !(cfg.subs.contains sid)) with
  | true =>
    simp only [if_pos rfl]
    exact h
  | false =>
    simp only [Bool.false_eq_true, if_false]
    have h0 : mInv (sid, (lookupS streams sid).getD initM) := by
      cases hl : lookupS streams sid with
      | none =>
        simpa using mInv_initM
      | some st0 =>
        simpa using lookupS_pred streams sid st0 h hl
    set st0 := (lookupS streams sid).getD initM with hst0
    set st1 := if !st0.has_file && !(singleStdout cfg) then
        { st0 with has_file := true, fout_open := true } else st0 with hst1
    have h1 : mInv (sid, st1) := by
      rw [hst1]
      cases hc : (!st0.has_file && !(singleStdout cfg)) with
      | true => simpa using h0
      | false => simpa using h0
    have hstreams1 : ∀ e ∈ updateS streams sid st1, mInv e :=
      updateS_pred streams sid st1 h h1
    by_cases hstale : seq < st1.core.expected
    · simp only [if_pos hstale]
      exact hstreams1
    · rw [if_neg hstale]
      have hing : mInv (sid, (⟨(ingest st1.core ⟨seq, fin, payload⟩ t).1,
          st1.has_file, st1.fout_open⟩ : MState)) := by
        exact ingest_keysGt st1.core ⟨seq, fin, payload⟩ t h1
      cases hc2 : completeL (ingest st1.core ⟨seq, fin, payload⟩ t).1 with
      | true =>
        simp only [if_pos rfl]
        refine updateS_pred _ sid _ hstreams1 ?_
        exact hing
      | false =>
        simp only [Bool.false_eq_true, if_false]
        exact updateS_pred _ sid _ hstreams1 hing

theorem mTick_mInv (cfg : MCfg) (tmo t : Nat) (streams : List (Nat × MState))
    (h : ∀ e ∈ streams, mInv e) :
    ∀ e ∈ (mTick cfg tmo t streams).1, mInv e := by
  intro e he
  simp only [mTick, List.map_map, List.mem_map] at he
  obtain ⟨e0, he0, hee⟩ := he
  have h0 := h e0 he0
  rw [← hee]
  simp only [Function.comp, mTickStream]
  cases hc : (e0.2.core.final_seen && decide (tmo < t - e0.2.core.final_at)) with
  | true =>
    simp only [if_pos rfl]
    exact h0
  | false =>
    simp only [Bool.false_eq_true, if_false]
    exact h0

theorem mDgram_mInv (cfg : MCfg) (streams : List (Nat × MState))
    (d : List Nat) (t : Nat) (h : ∀ e ∈ streams, mInv e) :
    ∀ e ∈ (mDgram cfg streams d t).1, mInv e := by
  unfold mDgram
  cases hp : recvParse d with
  | none => exact h
  | some p => exact mFrame_mInv cfg streams p.sid p.seq _ p.payload t h

theorem mLoop_mInv (cfg : MCfg) (tmo : Nat) (streams : List (Nat × MState))
    (evs : List MEv) (h : ∀ e ∈ streams, mInv e) :
    ∀ e ∈ (mLoop cfg tmo streams evs).streams, mInv e := by
  induction evs generalizing streams with
  | nil => exact h
  | cons ev rest ih =>
    cases ev with
    | err => exact h
    | tick t =>
      have h1 := mTick_mInv cfg tmo t streams h
      simp only [mLoop]
      cases hb : (mTick cfg tmo t streams).2.2 with
      | true =>
        simp only [if_pos rfl]
        exact h1
      | false =>
        simp only [Bool.false_eq_true, if_false]
        exact ih _ h1
    | dgram d t =>
      have h1 := mDgram_mInv cfg streams d t h
      simp only [mLoop]
      cases hb : (mDgram cfg streams d t).2.2.2 with
      | true =>
        simp only [if_pos rfl]
        exact h1
      | false =>
        simp only [Bool.false_eq_true, if_false]
        exact ih _ h1

/-- C6 (amended): whenever the receive loop exits, the post-loop flush runs
the drain loop on every live stream and closes every open file sink, but —
because buffered keys always exceed `expected` — it never writes a byte, it
prints nothing (the run's diagnostics are exactly the loop's diagnostics, so
the remaining unreachable buffered bytes are dropped without a report), and
the same holds of the legacy receiver's post-loop flush. -/
theorem C6_flush (cfg : MCfg) (tmo : Nat) (evs : List MEv) :
    (∀ w ∈ (runMulti cfg tmo evs).flushWrites, w.2 = ([] : List Nat)) ∧
    (∀ e ∈ (runMulti cfg tmo evs).streams,
      (e.2.has_file && e.2.fout_open) = false) ∧
    (runMulti cfg tmo evs).reports = (mLoop cfg tmo [] evs).reports ∧
    (∀ tmo2 evs2, (drain (legacyLoop tmo2 initL evs2).state).2 = ([] : List Nat)) := by
  have hloop := mLoop_mInv cfg tmo [] evs (by intro e he; simp at he)
  refine ⟨?_, ?_, rfl, ?_⟩
  · intro w hw
    simp only [runMulti, flushM, List.mem_map] at hw
    obtain ⟨e0, he0, hee⟩ := hw
    have h0 := hloop e0 he0
    rw [← hee]
    simp only [flushStream]
    rw [drain_eq_of_keysGt _ h0]
    cases hc : (e0.2.has_file && e0.2.fout_open) with
    | true => simp
    | false => simp
  · intro e he
    simp only [runMulti, flushM, List.mem_map] at he
    obtain ⟨e0, he0, hee⟩ := he
    rw [← hee]
    simp only [flushStream]
    cases h1 : e0.2.has_file <;> cases h2 : e0.2.fout_open <;> simp [h1, h2]
  · intro tmo2 evs2
    rw [drain_eq_of_keysGt _ (legacyLoop_keysGt tmo2 initL evs2 keysGt_initL)]
